import Mathlib

/-!
# Verification of the dynamic-encoder library

This development embeds the core of the `dynamic-encoder` JavaScript
library: the canonical serialization of an encoder's functions
(`generateFunctionsString`), the integrity hash (`generateHash`), the
data-URI packaging (`toDataUri`), creation (`generateEncodingUri`,
exported as `create`) and loading with integrity verification
(`importEncodingFromUri`, exported as `load`).

JavaScript strings are modelled as `List Char` (`Str`), JavaScript
runtime values by the inductive `JSVal`; a function value carries its
source text, i.e. the result of `Function.prototype.toString`.  Closure
environments of caller-supplied functions are not modelled: a function
value is its source text, and evaluating the same source yields the
same behavior.
-/

set_option autoImplicit false

namespace DynamicEncoder

/-- JavaScript strings, modelled as lists of characters. -/
abbrev Str := List Char

/-- The character list of a Lean string literal (JS string constants). -/
def chars (s : String) : Str := s.data

/-- A JavaScript runtime value.  `fn` is a function value carrying its
source text (`toString`); `dat` is an opaque non-callable value (e.g. a
plain object used as a dependency); `host` is an opaque host object such
as the `cenc` and `b4a` externals. -/
inductive JSVal : Type where
  | undefined : JSVal
  | str : Str → JSVal
  | fn : Str → JSVal
  | dat : Nat → JSVal
  | host : Str → JSVal
deriving DecidableEq, Repr

/-- `typeof v === 'function'`. -/
def JSVal.isFunction : JSVal → Bool
  | .fn _ => true
  | _ => false

/-- The source text of a function value (`v.toString()`); `[]` otherwise
(in the library it is only applied to function values). -/
def JSVal.fnSrc : JSVal → Str
  | .fn s => s
  | _ => []

/-- An encoder definition: the three optional capabilities, each a
function given by its source text, plus the optional `name` property read
by `generateEncodingUri`. -/
structure EncoderDef where
  encode : Option Str := none
  decode : Option Str := none
  preencode : Option Str := none
  name : Option Str := none
deriving DecidableEq, Repr

/-- A dependency map: key/value pairs in object insertion order
(JavaScript `Object.keys` order for string keys).  A JavaScript object
cannot hold a key twice, so maps with `Nodup` keys are the faithful
instances. -/
abbrev DepMap := List (Str × JSVal)

/-- JS `s.startsWith(p)`. -/
def jsStartsWith (s p : Str) : Bool := decide (s.take p.length = p)

/-- JS `s.indexOf('(')` (the library only takes this index on strings
that do contain `'('`, so the not-found value is irrelevant here). -/
def idxOfParen (s : Str) : Nat := (s.takeWhile (fun c => c != '(')).length

/-- The source form emitted for a function stored under property name
`fnName`: the shorthand-method spelling (source starting with
`fnName(` or `fnName (`) is rewritten to a named function expression
`function fnName(...)`, anything else passes through verbatim.  This is
the second component of `handleFunction` in
src/lib/generateFunctionsString.js. -/
def normalizeFnSrc (fnName fn : Str) : Str :=
  if jsStartsWith fn (fnName ++ chars "(") || jsStartsWith fn (fnName ++ chars " (") then
    chars "function " ++ fnName ++ fn.drop (idxOfParen fn)
  else fn

/-- `handleFunction` from src/lib/generateFunctionsString.js: emits
`fnName: <source form>` with shorthand methods converted to full
function expressions. -/
def handleFunction (fnName fn : Str) : Str :=
  fnName ++ chars ": " ++ normalizeFnSrc fnName fn

/-- `properties.join(",\n")`. -/
def joinSep (sep : Str) : List Str → Str
  | [] => []
  | [x] => x
  | x :: y :: ys => x ++ sep ++ joinSep sep (y :: ys)

/-- `generateFunctionsString` from src/lib/generateFunctionsString.js:
the canonical text — the present capabilities in the fixed order
encode, decode, preencode, then the dependency entries whose value is a
function, in map (insertion) order, joined by `",\n"`. -/
def generateFunctionsString (encoder : EncoderDef) (dependencies : DepMap) : Str :=
  let depStrings := (dependencies.filter fun kv => kv.2.isFunction).map
    fun kv => handleFunction kv.1 kv.2.fnSrc
  let properties :=
    ([ (match encoder.encode with | some f => handleFunction (chars "encode") f | none => []),
       (match encoder.decode with | some f => handleFunction (chars "decode") f | none => []),
       (match encoder.preencode with
        | some f => handleFunction (chars "preencode") f | none => []) ]
      ++ depStrings).filter fun s => !s.isEmpty
  if properties.length > 0 then joinSep (chars ",\n") properties else []

/-- `generateHash` from hasher.js: applies the (pluggable) hasher to the
canonical functions string.  The string-to-buffer conversion
(`b4a.from`, injective) is absorbed into the hasher's domain. -/
def generateHash (encoder : EncoderDef) (dependencies : DepMap) (hasher : Str → Str) : Str :=
  hasher (generateFunctionsString encoder dependencies)

/-- Hex digit characters. -/
def hexDigitChar (n : Nat) : Char := (chars "0123456789abcdef").getD n '0'

/-- Modelled from the spec: `defaultHasher` in hasher.js is the external
`crypto.subtle` SHA-256 hex digest.  No claim depends on the digest
algorithm, so it is modelled as an injective lowercase-hex encoding of
the input bytes. -/
def defaultHasher (data : Str) : Str :=
  (data.map Char.toNat).flatMap fun b => [hexDigitChar (b / 16 % 16), hexDigitChar (b % 16)]

/-! ## Base64 and data URIs -/

/-- The base64 alphabet. -/
def base64Chars : Str :=
  chars "ABCDEFGHIJKLMNOPQRSTUVWXYZabcdefghijklmnopqrstuvwxyz0123456789+/"

/-- The base64 character for a 6-bit value. -/
def b64Char (n : Nat) : Char := base64Chars.getD n 'A'

/-- The 6-bit value of a base64 character. -/
def b64Val (c : Char) : Nat := base64Chars.indexOf c

/-- Standard base64 encoding of a byte sequence, with `=` padding. -/
def b64Encode : List Nat → Str
  | [] => []
  | [a] => [b64Char (a / 4), b64Char (a % 4 * 16), '=', '=']
  | [a, b] => [b64Char (a / 4), b64Char (a % 4 * 16 + b / 16), b64Char (b % 16 * 4), '=']
  | a :: b :: c :: rest =>
      b64Char (a / 4) :: b64Char (a % 4 * 16 + b / 16) ::
      b64Char (b % 16 * 4 + c / 64) :: b64Char (c % 64) :: b64Encode rest

/-- Standard base64 decoding (on well-formed input). -/
def b64Decode : Str → List Nat
  | w :: x :: y :: z :: rest =>
      if y = '=' then [b64Val w * 4 + b64Val x / 16]
      else if z = '=' then [b64Val w * 4 + b64Val x / 16, b64Val x % 16 * 16 + b64Val y / 4]
      else (b64Val w * 4 + b64Val x / 16) :: (b64Val x % 16 * 16 + b64Val y / 4) ::
           (b64Val y % 4 * 64 + b64Val z) :: b64Decode rest
  | _ => []

/-- The host `btoa` primitive used by toDataUri.js: base64 of the
string's code points read as Latin-1 bytes; throws
`InvalidCharacterError` on any code point above U+00FF. -/
def btoa (s : Str) : Except Str Str :=
  if s.all fun c => decide (c.toNat < 256) then .ok (b64Encode (s.map Char.toNat))
  else .error (chars "InvalidCharacterError")

/-- The host `atob` primitive (inverse of `btoa` on its image). -/
def atob (s : Str) : Str := (b64Decode s).map Char.ofNat

/-- `toDataUri` from toDataUri.js: `data:text/javascript;base64,` plus
the base64 of the module code (propagating the `btoa` failure). -/
def toDataUri (code : Str) : Except Str Str :=
  (btoa code).map fun base64 => chars "data:text/javascript;base64," ++ base64

/-- Recovering the module text from a generated data URI (what the host
module loader does before evaluating it). -/
def unpackDataUri (uri : Str) : Str :=
  atob (uri.drop (chars "data:text/javascript;base64,").length)

/-! ## Sorting dependency keys

`Object.keys(dependencies).sort()` sorts the (unique) keys with the
default comparator: lexicographically by code unit. -/

/-- Lexicographic string comparison by code point. -/
def strLeB : Str → Str → Bool
  | [], _ => true
  | _ :: _, [] => false
  | a :: as, b :: bs =>
      if a.toNat < b.toNat then true
      else if b.toNat < a.toNat then false
      else strLeB as bs

/-- The order used on dependency keys. -/
def strLe (a b : Str) : Prop := strLeB a b = true

instance : DecidableRel strLe := fun a b =>
  inferInstanceAs (Decidable (strLeB a b = true))

theorem char_toNat_inj {a b : Char} (h : a.toNat = b.toNat) : a = b := by
  have h2 := congrArg Char.ofNat h
  rwa [Char.ofNat_toNat, Char.ofNat_toNat] at h2

theorem strLeB_total : ∀ a b : Str, strLeB a b = true ∨ strLeB b a = true := by
  intro a
  induction a with
  | nil => intro b; left; rfl
  | cons x xs ih =>
    intro b
    cases b with
    | nil => right; rfl
    | cons y ys =>
      by_cases h1 : x.toNat < y.toNat
      · left; simp [strLeB, h1]
      · by_cases h2 : y.toNat < x.toNat
        · right; simp [strLeB, h2]
        · rcases ih ys with h | h
          · left; simp [strLeB, h1, h2, h]
          · right; simp [strLeB, h1, h2, h]

theorem strLeB_antisymm : ∀ a b : Str, strLeB a b = true → strLeB b a = true → a = b := by
  intro a
  induction a with
  | nil =>
    intro b _ hba
    cases b with
    | nil => rfl
    | cons y ys => simp [strLeB] at hba
  | cons x xs ih =>
    intro b hab hba
    cases b with
    | nil => simp [strLeB] at hab
    | cons y ys =>
      by_cases h1 : x.toNat < y.toNat
      · have : ¬ y.toNat < x.toNat := by omega
        simp [strLeB, h1, this] at hba
      · by_cases h2 : y.toNat < x.toNat
        · simp [strLeB, h1, h2] at hab
        · have hxy : x = y := char_toNat_inj (by omega)
          simp [strLeB, h1, h2] at hab hba
          rw [hxy, ih ys hab hba]

theorem strLeB_trans : ∀ a b c : Str,
    strLeB a b = true → strLeB b c = true → strLeB a c = true := by
  intro a
  induction a with
  | nil => intro b c _ _; rfl
  | cons x xs ih =>
    intro b c hab hbc
    cases b with
    | nil => simp [strLeB] at hab
    | cons y ys =>
      cases c with
      | nil => simp [strLeB] at hbc
      | cons z zs =>
        by_cases hxy : x.toNat < y.toNat
        · by_cases hyz : y.toNat < z.toNat
          · simp [strLeB, show x.toNat < z.toNat by omega]
          · have hzy : ¬ z.toNat < y.toNat := by
              by_contra hzy
              simp [strLeB, hyz, hzy] at hbc
            simp [strLeB, show x.toNat < z.toNat by omega]
        · by_cases hyx : y.toNat < x.toNat
          · simp [strLeB, hxy, hyx] at hab
          · have hxy' : x.toNat = y.toNat := by omega
            simp [strLeB, hxy, hyx] at hab
            by_cases hyz : y.toNat < z.toNat
            · simp [strLeB, show x.toNat < z.toNat by omega]
            · have hzy : ¬ z.toNat < y.toNat := by
                by_contra hzy
                simp [strLeB, hyz, hzy] at hbc
              simp [strLeB, hyz, hzy] at hbc
              have h1 : ¬ x.toNat < z.toNat := by omega
              have h2 : ¬ z.toNat < x.toNat := by omega
              simp [strLeB, h1, h2, ih ys zs hab hbc]

instance : IsTotal Str strLe := ⟨strLeB_total⟩
instance : IsTrans Str strLe := ⟨fun a b c => strLeB_trans a b c⟩
instance : IsAntisymm Str strLe := ⟨fun a b => strLeB_antisymm a b⟩

/-- `keys.sort()`. -/
def sortKeys (keys : List Str) : List Str := keys.insertionSort strLe

/-- `dependencies[key]` — object property access on the dependency map. -/
def depLookup (dependencies : DepMap) (key : Str) : JSVal :=
  match dependencies.find? (fun kv => kv.1 == key) with
  | some kv => kv.2
  | none => .undefined

/-! ## Creator -/

/-- The module source text built by `generateEncodingUri`: a factory
taking `(cenc, b4a, <sorted dependency keys>)` and returning an object
literal holding the canonical properties, the optional `name` entry and
the `hash` entry. -/
def generateModuleCode (encoderName : Str) (encoder : EncoderDef) (dependencies : DepMap)
    (hasher : Str → Str) : Str :=
  let dependencyKeys := sortKeys (dependencies.map Prod.fst)
  let dependencyString :=
    if dependencyKeys.length ≠ 0 then chars "," ++ joinSep (chars ",") dependencyKeys else []
  let functionsString := generateFunctionsString encoder dependencies
  let hash := generateHash encoder dependencies hasher
  let effectiveName := if encoderName ≠ [] then encoderName else encoder.name.getD []
  let nameEntry :=
    if effectiveName ≠ [] then chars "name: \"" ++ effectiveName ++ chars "\"" else []
  let hashEntry := chars "hash: \"" ++ hash ++ chars "\""
  let properties :=
    joinSep (chars ",\n") (([functionsString, nameEntry, hashEntry]).filter fun s => !s.isEmpty)
  chars "\nexport default function (cenc, b4a" ++ dependencyString ++
    chars ") \x7b\n    return \x7b\n        " ++ properties ++ chars "\n    \x7d;\n\x7d"

/-- The result of `create`: the data URI and the digest. -/
structure CreateResult where
  uri : Str
  hash : Str
deriving DecidableEq, Repr

/-- `generateEncodingUri` (exported as `create`): packages the module
code as a data URI and returns it with the digest of the canonical
functions string.  A `btoa` failure propagates. -/
def generateEncodingUri (encoderName : Str) (encoder : EncoderDef) (dependencies : DepMap)
    (hasher : Str → Str) : Except Str CreateResult :=
  (toDataUri (generateModuleCode encoderName encoder dependencies hasher)).map
    fun uri => ⟨uri, generateHash encoder dependencies hasher⟩

/-! ## The structured artifact and the loader -/

/-- The structured content of a generated module: the sorted dependency
names declared as formal parameters, the serialized function property
entries in emission order, and the `name`/`hash` entries.  The packager
(spec §4.3) is a bijection between module text and portable artifact, so
the loader is stated on this structured view;
`renderArtifact_createdArtifact` ties it back to the module text that
`generateEncodingUri` actually emits. -/
structure Artifact where
  depParams : List Str
  entries : List (Str × Str)
  nameProp : Option Str
  hashProp : Str
deriving DecidableEq, Repr

/-- The entries coming from the three capabilities. -/
def capEntries (encoder : EncoderDef) : List (Str × Str) :=
  (match encoder.encode with
   | some f => [(chars "encode", normalizeFnSrc (chars "encode") f)] | none => []) ++
  (match encoder.decode with
   | some f => [(chars "decode", normalizeFnSrc (chars "decode") f)] | none => []) ++
  (match encoder.preencode with
   | some f => [(chars "preencode", normalizeFnSrc (chars "preencode") f)] | none => [])

/-- The entries coming from the function-valued dependencies. -/
def depEntries (dependencies : DepMap) : List (Str × Str) :=
  (dependencies.filter fun kv => kv.2.isFunction).map
    fun kv => (kv.1, normalizeFnSrc kv.1 kv.2.fnSrc)

/-- Rendering a property entry as `name: source`. -/
def renderEntry (p : Str × Str) : Str := p.1 ++ chars ": " ++ p.2

theorem renderEntry_handleFunction (k s : Str) :
    renderEntry (k, normalizeFnSrc k s) = handleFunction k s := rfl

/-- The artifact produced by `generateEncodingUri` for the given inputs
(the structured counterpart of `generateModuleCode`). -/
def createdArtifact (encoderName : Str) (encoder : EncoderDef) (dependencies : DepMap)
    (hasher : Str → Str) : Artifact :=
  let effectiveName := if encoderName ≠ [] then encoderName else encoder.name.getD []
  { depParams := sortKeys (dependencies.map Prod.fst)
    entries := capEntries encoder ++ depEntries dependencies
    nameProp := if effectiveName ≠ [] then some effectiveName else none
    hashProp := generateHash encoder dependencies hasher }

/-- Rendering an artifact as module text (the packaging direction). -/
def renderArtifact (a : Artifact) : Str :=
  let dependencyString :=
    if a.depParams.length ≠ 0 then chars "," ++ joinSep (chars ",") a.depParams else []
  let functionsString := joinSep (chars ",\n") (a.entries.map renderEntry)
  let nameEntry := match a.nameProp with
    | some n => chars "name: \"" ++ n ++ chars "\"" | none => []
  let hashEntry := chars "hash: \"" ++ a.hashProp ++ chars "\""
  let properties :=
    joinSep (chars ",\n") (([functionsString, nameEntry, hashEntry]).filter fun s => !s.isEmpty)
  chars "\nexport default function (cenc, b4a" ++ dependencyString ++
    chars ") \x7b\n    return \x7b\n        " ++ properties ++ chars "\n    \x7d;\n\x7d"

/-- The third parameter of `load`: a callable (a hasher), an object
(a dependency map), or some other primitive value. -/
inductive HasherOrDeps where
  | hasherArg : (Str → Str) → HasherOrDeps
  | objArg : DepMap → HasherOrDeps
  | primArg : JSVal → HasherOrDeps

/-- The object a loaded module factory returns, together with the
parameter environment its function properties close over. -/
structure LoadedObj where
  props : List (Str × JSVal)
  env : List (Str × JSVal)
deriving DecidableEq, Repr

/-- Object property lookup on a literal: a later occurrence of a key
overrides an earlier one; absent keys give `undefined`. -/
def getProp (props : List (Str × JSVal)) (k : Str) : JSVal :=
  props.foldl (fun acc kv => if kv.1 == k then kv.2 else acc) .undefined

/-- Property access on a loaded object. -/
def LoadedObj.get (o : LoadedObj) (k : Str) : JSVal := getProp o.props k

/-- Modelled from the spec (§4.3/§4.4): dynamic `import` of the artifact
followed by `module.default(cenc, b4a, ...args)`.  Each serialized
function entry of the object literal evaluates to a function value whose
source text is the entry's source; the `name`/`hash` entries evaluate to
strings; the formal parameters `cenc, b4a, <depParams>` are bound
positionally to the arguments, giving the scope (`env`) the entry bodies
close over. -/
def evalFactory (a : Artifact) (args : List JSVal) : LoadedObj :=
  { props := (a.entries.map fun e => (e.1, JSVal.fn e.2)) ++
      (match a.nameProp with | some n => [(chars "name", JSVal.str n)] | none => []) ++
      [(chars "hash", JSVal.str a.hashProp)]
    env := (chars "cenc" :: chars "b4a" :: a.depParams).zip args }

/-- Reading the capabilities off a loaded object — the destructuring
`const { encode, decode, preencode } = encoder` combined with the
truthiness tests in `generateFunctionsString`. -/
def encoderOfObj (o : LoadedObj) : EncoderDef :=
  { encode := match o.get (chars "encode") with | .fn s => some s | _ => none
    decode := match o.get (chars "decode") with | .fn s => some s | _ => none
    preencode := match o.get (chars "preencode") with | .fn s => some s | _ => none
    name := match o.get (chars "name") with | .str s => some s | _ => none }

/-- The third-parameter disambiguation at the top of
`importEncodingFromUri`: a function is the hasher; otherwise an object
replaces the dependency map; any other value leaves both defaults. -/
def resolveHasherDeps (hasherOrDeps : HasherOrDeps) (dependencies : DepMap) :
    (Str → Str) × DepMap :=
  match hasherOrDeps with
  | .hasherArg h => (h, dependencies)
  | .objArg m => (defaultHasher, m)
  | .primArg _ => (defaultHasher, dependencies)

/-- The hasher `load` ends up using. -/
def loadHasher (hod : HasherOrDeps) (deps : DepMap) : Str → Str :=
  (resolveHasherDeps hod deps).1

/-- The dependency map `load` ends up using. -/
def loadDeps (hod : HasherOrDeps) (deps : DepMap) : DepMap :=
  (resolveHasherDeps hod deps).2

/-- The positional arguments passed to the module factory:
`cenc, b4a, ...sortedDependencies` where `sortedDependencies` are the
dependency values in name-sorted order. -/
def loadArgs (hod : HasherOrDeps) (deps : DepMap) : List JSVal :=
  JSVal.host (chars "cenc") :: JSVal.host (chars "b4a") ::
    (sortKeys ((loadDeps hod deps).map Prod.fst)).map (depLookup (loadDeps hod deps))

/-- The raw object the factory returns at load time. -/
def loadObj (a : Artifact) (hod : HasherOrDeps) (deps : DepMap) : LoadedObj :=
  evalFactory a (loadArgs hod deps)

/-- The integrity hash `load` recomputes: the same
serializer-plus-hasher pipeline applied to the loaded encoder and the
load-time dependency map. -/
def loadComputedHash (a : Artifact) (hod : HasherOrDeps) (deps : DepMap) : Str :=
  generateHash (encoderOfObj (loadObj a hod deps)) (loadDeps hod deps) (loadHasher hod deps)

/-- `cenc.from` (spec §6): an external pure adapter; modelled as the
identity. -/
def cencFrom (o : LoadedObj) : LoadedObj := o

/-- The observable steps `importEncodingFromUri` performs, in order. -/
inductive LoadEvent where
  | evalArtifact : Artifact → LoadEvent
  | callFactory : List JSVal → LoadEvent
  | compareHash : Str → Str → LoadEvent
deriving DecidableEq, Repr

/-- `importEncodingFromUri` (exported as `load`), with the sequence of
effects it performs: the artifact's module is evaluated and its factory
invoked, then the integrity hash is recomputed and compared; on mismatch
the call throws `"Data integrity check failed: hash mismatch."`,
otherwise the adapted encoder is returned. -/
def importEncodingFromUriTrace (a : Artifact) (expectedHash : Str)
    (hasherOrDeps : HasherOrDeps) (dependencies : DepMap) :
    List LoadEvent × Except Str LoadedObj :=
  let loaded := loadObj a hasherOrDeps dependencies
  let computedHash := loadComputedHash a hasherOrDeps dependencies
  ([.evalArtifact a, .callFactory (loadArgs hasherOrDeps dependencies),
    .compareHash computedHash expectedHash],
   if computedHash = expectedHash then .ok (cencFrom loaded)
   else .error (chars "Data integrity check failed: hash mismatch."))

/-- The result of `load`. -/
def importEncodingFromUri (a : Artifact) (expectedHash : Str)
    (hasherOrDeps : HasherOrDeps) (dependencies : DepMap) : Except Str LoadedObj :=
  (importEncodingFromUriTrace a expectedHash hasherOrDeps dependencies).2

/-- The message of a failed load (`[]` on success). -/
def loadErrorMsg (r : Except Str LoadedObj) : Str :=
  match r with
  | .error m => m
  | .ok _ => []

/-! ## Base64 round trip -/

theorem b64Val_b64Char : ∀ n : Nat, n < 64 → b64Val (b64Char n) = n := by decide

theorem b64Char_ne_pad : ∀ n : Nat, n < 64 → b64Char n ≠ '=' := by decide

theorem b64_roundtrip : ∀ l : List Nat, (∀ b ∈ l, b < 256) → b64Decode (b64Encode l) = l := by
  intro l
  induction l using b64Encode.induct with
  | case1 => intro _; rfl
  | case2 a =>
    intro hb
    have ha : a < 256 := hb a (by simp)
    have e1 : a % 4 * 16 / 16 = a % 4 := by omega
    simp only [b64Encode, b64Decode, ite_true]
    rw [b64Val_b64Char _ (by omega), b64Val_b64Char _ (by omega), e1]
    simp only [List.cons.injEq, and_true]
    omega
  | case3 a b =>
    intro hb
    have ha : a < 256 := hb a (by simp)
    have hb' : b < 256 := hb b (by simp)
    have hy : b64Char (b % 16 * 4) ≠ '=' := b64Char_ne_pad _ (by omega)
    have e1 : (a % 4 * 16 + b / 16) / 16 = a % 4 := by omega
    have e2 : (a % 4 * 16 + b / 16) % 16 = b / 16 := by omega
    have e3 : b % 16 * 4 / 4 = b % 16 := by omega
    simp only [b64Encode, b64Decode, hy, ite_true, ite_false]
    rw [b64Val_b64Char _ (by omega), b64Val_b64Char _ (by omega), b64Val_b64Char _ (by omega),
      e1, e2, e3]
    simp only [List.cons.injEq, and_true]
    exact ⟨by omega, by omega⟩
  | case4 a b c rest ih =>
    intro hb
    have ha : a < 256 := hb a (by simp)
    have hb' : b < 256 := hb b (by simp)
    have hc : c < 256 := hb c (by simp)
    have hy : b64Char (b % 16 * 4 + c / 64) ≠ '=' := b64Char_ne_pad _ (by omega)
    have hz : b64Char (c % 64) ≠ '=' := b64Char_ne_pad _ (by omega)
    have e1 : (a % 4 * 16 + b / 16) / 16 = a % 4 := by omega
    have e2 : (a % 4 * 16 + b / 16) % 16 = b / 16 := by omega
    have e3 : (b % 16 * 4 + c / 64) / 4 = b % 16 := by omega
    have e4 : (b % 16 * 4 + c / 64) % 4 = c / 64 := by omega
    simp only [b64Encode, b64Decode, hy, hz, ite_true, ite_false]
    rw [b64Val_b64Char _ (by omega), b64Val_b64Char _ (by omega),
      b64Val_b64Char _ (by omega), b64Val_b64Char _ (by omega), e1, e2, e3, e4]
    simp only [List.cons.injEq]
    exact ⟨by omega, by omega, by omega, ih fun x hx => hb x (by simp [hx])⟩

theorem btoa_ok_of_latin1 (s : Str) (h : ∀ c ∈ s, c.toNat < 256) :
    btoa s = .ok (b64Encode (s.map Char.toNat)) := by
  rw [btoa, if_pos]
  rw [List.all_eq_true]
  intro c hc
  exact decide_eq_true (h c hc)

theorem atob_b64Encode (s : Str) (h : ∀ c ∈ s, c.toNat < 256) :
    atob (b64Encode (s.map Char.toNat)) = s := by
  rw [atob, b64_roundtrip]
  · simp [List.map_map, Function.comp_def, Char.ofNat_toNat]
  · intro b hb
    rcases List.mem_map.1 hb with ⟨c, hc, rfl⟩
    exact h c hc

/-! ## Basic string and serializer lemmas -/

theorem jsStartsWith_eq_true_iff {s p : Str} : jsStartsWith s p = true ↔ s.take p.length = p := by
  simp [jsStartsWith]

theorem eq_append_of_jsStartsWith {s p : Str} (h : jsStartsWith s p = true) :
    ∃ t, s = p ++ t := by
  refine ⟨s.drop p.length, ?_⟩
  rw [jsStartsWith_eq_true_iff] at h
  conv_lhs => rw [← List.take_append_drop p.length s, h]

theorem jsStartsWith_head_ne {a b : Char} (s p : Str) (h : a ≠ b) :
    jsStartsWith (a :: s) (b :: p) = false := by
  simp [jsStartsWith, List.take_succ_cons, h]

theorem getElem?_of_jsStartsWith {s p : Str} (h : jsStartsWith s p = true)
    {i : Nat} (hi : i < p.length) : s[i]? = p[i]? := by
  rw [jsStartsWith_eq_true_iff] at h
  conv_rhs => rw [← h, List.getElem?_take_of_lt hi]

theorem handleFunction_isEmpty (k s : Str) : (handleFunction k s).isEmpty = false := by
  cases k with
  | nil => rfl
  | cons c cs => rfl

theorem joinSep_if (sep : Str) (l : List Str) :
    (if l.length > 0 then joinSep sep l else []) = joinSep sep l := by
  cases l <;> simp [joinSep]

theorem renderEntry_isEmpty (p : Str × Str) : (renderEntry p).isEmpty = false := by
  rcases p with ⟨k, s⟩
  cases k with
  | nil => rfl
  | cons c cs => rfl

/-- The canonical text is exactly the rendered entry list of the created
artifact. -/
theorem generateFunctionsString_eq_entries (e : EncoderDef) (d : DepMap) :
    generateFunctionsString e d =
      joinSep (chars ",\n") ((capEntries e ++ depEntries d).map renderEntry) := by
  have hdep :
      ((d.filter fun kv => kv.2.isFunction).map
          fun kv => handleFunction kv.1 kv.2.fnSrc).filter (fun s => !s.isEmpty)
        = (depEntries d).map renderEntry := by
    rw [List.filter_eq_self.2, depEntries, List.map_map]
    · rfl
    · intro x hx
      rcases List.mem_map.1 hx with ⟨kv, _, rfl⟩
      simp [handleFunction_isEmpty]
  simp only [generateFunctionsString]
  rw [joinSep_if, List.filter_append, hdep, List.map_append]
  congr 1
  rcases he : e.encode with _ | f <;> rcases hd : e.decode with _ | g <;>
    rcases hp : e.preencode with _ | q <;>
    simp [capEntries, he, hd, hp, handleFunction_isEmpty, renderEntry_handleFunction]

/-- The structured artifact renders to exactly the module text that
`generateEncodingUri` emits. -/
theorem renderArtifact_createdArtifact (n : Str) (e : EncoderDef) (d : DepMap)
    (h : Str → Str) :
    renderArtifact (createdArtifact n e d h) = generateModuleCode n e d h := by
  simp only [renderArtifact, createdArtifact, generateModuleCode]
  rw [← generateFunctionsString_eq_entries]
  generalize (if n ≠ [] then n else e.name.getD []) = eff
  by_cases hn : eff = []
  · simp [hn]
  · simp [hn]

/-! ## Property and dependency lookup lemmas -/

theorem foldlProp_of_not_mem (qs : List (Str × JSVal)) (k : Str) (init : JSVal)
    (h : ∀ kv ∈ qs, kv.1 ≠ k) :
    qs.foldl (fun acc kv => if kv.1 == k then kv.2 else acc) init = init := by
  induction qs generalizing init with
  | nil => rfl
  | cons a l ih =>
    rw [List.foldl_cons, if_neg (by simpa using h a (by simp))]
    exact ih init fun kv hkv => h kv (by simp [hkv])

theorem foldlProp_of_mem (qs : List (Str × JSVal)) (k : Str) (init₁ init₂ : JSVal)
    (h : ∃ kv ∈ qs, kv.1 = k) :
    qs.foldl (fun acc kv => if kv.1 == k then kv.2 else acc) init₁
      = qs.foldl (fun acc kv => if kv.1 == k then kv.2 else acc) init₂ := by
  induction qs generalizing init₁ init₂ with
  | nil => rcases h with ⟨kv, hkv, _⟩; simp at hkv
  | cons a l ih =>
    rw [List.foldl_cons, List.foldl_cons]
    by_cases ha : a.1 = k
    · rw [if_pos (by simpa using ha), if_pos (by simpa using ha)]
    · rw [if_neg (by simpa using ha), if_neg (by simpa using ha)]
      apply ih
      rcases h with ⟨kv, hkv, hk⟩
      rcases List.mem_cons.1 hkv with heq | hmem
      · exact absurd (heq ▸ hk) ha
      · exact ⟨kv, hmem, hk⟩

theorem getProp_append_left (ps qs : List (Str × JSVal)) (k : Str)
    (h : ∀ kv ∈ qs, kv.1 ≠ k) : getProp (ps ++ qs) k = getProp ps k := by
  rw [getProp, getProp, List.foldl_append]
  exact foldlProp_of_not_mem qs k _ h

theorem getProp_append_right (ps qs : List (Str × JSVal)) (k : Str)
    (h : ∃ kv ∈ qs, kv.1 = k) : getProp (ps ++ qs) k = getProp qs k := by
  rw [getProp, getProp, List.foldl_append]
  exact foldlProp_of_mem qs k _ _ h

theorem getProp_of_nodup (props : List (Str × JSVal)) (k : Str) (v : JSVal)
    (hnd : (props.map Prod.fst).Nodup) (hmem : (k, v) ∈ props) : getProp props k = v := by
  induction props with
  | nil => simp at hmem
  | cons a l ih =>
    have hnd' : a.1 ∉ l.map Prod.fst ∧ (l.map Prod.fst).Nodup := by
      rw [List.map_cons, List.nodup_cons] at hnd
      exact hnd
    rcases List.mem_cons.1 hmem with heq | hmem'
    · rw [getProp, List.foldl_cons, if_pos (by simp [← heq])]
      have ha1 : a.1 = k := (congrArg Prod.fst heq).symm
      have hrest : ∀ kv ∈ l, kv.1 ≠ k := by
        intro kv hkv hk
        apply hnd'.1
        have hin : kv.1 ∈ l.map Prod.fst := List.mem_map_of_mem Prod.fst hkv
        rw [ha1, ← hk]
        exact hin
      rw [foldlProp_of_not_mem l k a.2 hrest]
      exact (congrArg Prod.snd heq).symm
    · have hak : a.1 ≠ k := by
        intro hk
        exact hnd'.1 (hk ▸ (List.mem_map_of_mem Prod.fst hmem' : (k, v).1 ∈ l.map Prod.fst))
      rw [getProp, List.foldl_cons, if_neg (by simpa using hak)]
      exact ih hnd'.2 hmem'

theorem find?_eq_of_mem_nodup {d : DepMap} {k : Str} {v : JSVal}
    (hmem : (k, v) ∈ d) (hnd : (d.map Prod.fst).Nodup) :
    d.find? (fun kv => kv.1 == k) = some (k, v) := by
  induction d with
  | nil => simp at hmem
  | cons a l ih =>
    have hnd' : a.1 ∉ l.map Prod.fst ∧ (l.map Prod.fst).Nodup := by
      rw [List.map_cons, List.nodup_cons] at hnd
      exact hnd
    rcases List.mem_cons.1 hmem with heq | hmem'
    · rw [← heq]
      exact List.find?_cons_of_pos _ (by simp)
    · have hak : a.1 ≠ k := by
        intro hk
        exact hnd'.1 (hk ▸ (List.mem_map_of_mem Prod.fst hmem' : (k, v).1 ∈ l.map Prod.fst))
      rw [List.find?_cons_of_neg _ (by simpa using hak)]
      exact ih hmem' hnd'.2

theorem depLookup_eq_of_mem_nodup {d : DepMap} {k : Str} {v : JSVal}
    (hmem : (k, v) ∈ d) (hnd : (d.map Prod.fst).Nodup) : depLookup d k = v := by
  rw [depLookup, find?_eq_of_mem_nodup hmem hnd]

theorem depLookup_of_not_mem {d : DepMap} {k : Str} (h : k ∉ d.map Prod.fst) :
    depLookup d k = .undefined := by
  rw [depLookup, List.find?_eq_none.2]
  intro kv hkv
  simp only [beq_iff_eq]
  intro hk
  exact h (hk ▸ List.mem_map_of_mem Prod.fst hkv)

theorem map_depLookup_keys (d : DepMap) (hnd : (d.map Prod.fst).Nodup) :
    (d.map Prod.fst).map (depLookup d) = d.map Prod.snd := by
  induction d with
  | nil => rfl
  | cons a l ih =>
    have hnd' : a.1 ∉ l.map Prod.fst ∧ (l.map Prod.fst).Nodup := by
      rw [List.map_cons, List.nodup_cons] at hnd
      exact hnd
    simp only [List.map_cons]
    congr 1
    · exact depLookup_eq_of_mem_nodup (by simp) hnd
    · rw [List.map_congr_left, ih hnd'.2]
      intro k' hk'
      have hak : a.1 ≠ k' := fun hk => hnd'.1 (hk ▸ hk')
      rw [depLookup, depLookup, List.find?_cons_of_neg _ (by simpa using hak)]

theorem depLookup_perm {d₁ d₂ : DepMap} (hp : d₁.Perm d₂)
    (hnd : (d₁.map Prod.fst).Nodup) (k : Str) : depLookup d₁ k = depLookup d₂ k := by
  have hnd₂ : (d₂.map Prod.fst).Nodup := ((hp.map Prod.fst).nodup_iff).1 hnd
  by_cases hk : k ∈ d₁.map Prod.fst
  · rcases List.mem_map.1 hk with ⟨kv, hkv, hfst⟩
    have hmem : (k, kv.2) ∈ d₁ := by rw [← hfst]; exact hkv
    rw [depLookup_eq_of_mem_nodup hmem hnd,
      depLookup_eq_of_mem_nodup (hp.subset hmem) hnd₂]
  · rw [depLookup_of_not_mem hk, depLookup_of_not_mem (fun hm => hk ((hp.map Prod.fst).mem_iff.2 hm))]

/-! ## Sorted keys lemmas -/

theorem sortKeys_perm (l : List Str) : (sortKeys l).Perm l := List.perm_insertionSort strLe l

theorem sortKeys_sorted (l : List Str) : List.Sorted strLe (sortKeys l) :=
  List.sorted_insertionSort strLe l

theorem sortKeys_eq_of_perm {l₁ l₂ : List Str} (hp : l₁.Perm l₂) : sortKeys l₁ = sortKeys l₂ :=
  List.eq_of_perm_of_sorted ((sortKeys_perm l₁).trans (hp.trans (sortKeys_perm l₂).symm))
    (sortKeys_sorted l₁) (sortKeys_sorted l₂)

/-! ## Source-form normalization and function denotation -/

/-- Characters allowed in a JavaScript identifier. -/
def identChar (c : Char) : Bool := c.isAlpha || c.isDigit || c == '_' || c == '$'

/-- A usable JavaScript identifier for a capability or dependency name:
nonempty, made of identifier characters, and not one of the two keywords
that can open a function-expression source (`function`, `async`) —
reserved words cannot name the generated module's formal parameters
anyway. -/
def isJsIdent (s : Str) : Bool :=
  !s.isEmpty && s.all identChar && s != chars "function" && s != chars "async"

/-- Modelled from the spec (§4.1): the observable behavior of a
standalone function value, identified with its source text normalized so
that a method-shorthand spelling `name(args) {...}` denotes the same
function as the named function expression `function name(args) {...}`;
`function` expressions and arrow functions denote themselves.  Closure
state is not modelled: equal denotations mean identical behavior. -/
def denoteFun (src : Str) : Str :=
  let nm := src.takeWhile identChar
  if !nm.isEmpty && nm != chars "function" && nm != chars "async" &&
      (jsStartsWith (src.drop nm.length) (chars "(") ||
       jsStartsWith (src.drop nm.length) (chars " (")) then
    chars "function " ++ nm ++ src.drop (idxOfParen src)
  else src

theorem isJsIdent_parts {s : Str} (h : isJsIdent s = true) :
    s ≠ [] ∧ (∀ c ∈ s, identChar c = true) ∧ s ≠ chars "function" ∧ s ≠ chars "async" := by
  rw [isJsIdent, Bool.and_eq_true, Bool.and_eq_true, Bool.and_eq_true] at h
  obtain ⟨⟨⟨h1, h2⟩, h3⟩, h4⟩ := h
  refine ⟨?_, fun c hc => List.all_eq_true.1 h2 c hc, ?_, ?_⟩
  · intro he
    rw [he] at h1
    exact absurd h1 (by decide)
  · intro he
    rw [he] at h3
    exact absurd h3 (by decide)
  · intro he
    rw [he] at h4
    exact absurd h4 (by decide)

theorem takeWhile_append_stop {p : Char → Bool} (l₁ : Str) (c : Char) (l₂ : Str)
    (h₁ : ∀ x ∈ l₁, p x = true) (hc : p c = false) :
    (l₁ ++ c :: l₂).takeWhile p = l₁ := by
  induction l₁ with
  | nil => simp [List.takeWhile_cons, hc]
  | cons a l ih =>
    rw [List.cons_append, List.takeWhile_cons, if_pos (h₁ a (by simp))]
    rw [ih fun x hx => h₁ x (by simp [hx])]

theorem identChar_ne_space {c : Char} (h : identChar c = true) : c ≠ ' ' := by
  intro he
  rw [he] at h
  exact absurd h (by decide)

theorem identChar_ne_paren {c : Char} (h : identChar c = true) : c ≠ '(' := by
  intro he
  rw [he] at h
  exact absurd h (by decide)

/-- A name made of identifier characters can never be read as a
shorthand-method head inside a `function `-form source: the emitted
named-function form is stable. -/
theorem not_starts_function_form (name rest : Str)
    (hne : name ≠ []) (hall : ∀ c ∈ name, identChar c = true) :
    jsStartsWith (chars "function " ++ name ++ rest) (name ++ chars "(") = false ∧
    jsStartsWith (chars "function " ++ name ++ rest) (name ++ chars " (") = false := by
  have hassoc : chars "function " ++ name ++ rest = chars "function " ++ (name ++ rest) :=
    List.append_assoc _ _ _
  have hL : 0 < name.length := List.length_pos.2 hne
  have len1 : (chars "(").length = 1 := rfl
  have len2 : (chars " (").length = 2 := rfl
  have len9 : (chars "function ").length = 9 := rfl
  constructor
  · by_contra h'
    rw [Bool.not_eq_false] at h'
    rcases Nat.lt_or_ge name.length 9 with h9 | h9
    · have hi : name.length < (name ++ chars "(").length := by
        rw [List.length_append, len1]
        omega
      have hkey := getElem?_of_jsStartsWith h' hi
      have hrhs : (name ++ chars "(")[name.length]? = some '(' := by
        rw [List.getElem?_append_right (Nat.le_refl _), Nat.sub_self]
        rfl
      have hlhs : (chars "function " ++ (name ++ rest))[name.length]?
          = (chars "function ")[name.length]? :=
        List.getElem?_append_left (by omega)
      rw [hassoc, hlhs, hrhs] at hkey
      have hmem : '(' ∈ chars "function " := List.getElem?_mem hkey
      exact absurd hmem (by decide)
    · have hi : 8 < (name ++ chars "(").length := by
        rw [List.length_append, len1]
        omega
      have hkey := getElem?_of_jsStartsWith h' hi
      have hrhs : (name ++ chars "(")[8]? = name[8]? :=
        List.getElem?_append_left (by omega)
      have hlhs : (chars "function " ++ (name ++ rest))[8]? = some ' ' := by
        rw [List.getElem?_append_left (by omega)]
        rfl
      rw [hassoc, hlhs, hrhs] at hkey
      have hmem : ' ' ∈ name := List.getElem?_mem hkey.symm
      exact absurd (hall ' ' hmem) (by decide)
  · by_contra h'
    rw [Bool.not_eq_false] at h'
    rcases Nat.lt_or_ge name.length 8 with h8 | h8
    · have hi : name.length + 1 < (name ++ chars " (").length := by
        rw [List.length_append, len2]
        omega
      have hkey := getElem?_of_jsStartsWith h' hi
      have hrhs : (name ++ chars " (")[name.length + 1]? = some '(' := by
        rw [List.getElem?_append_right (by omega)]
        have hsub : name.length + 1 - name.length = 1 := by omega
        rw [hsub]
        rfl
      have hlhs : (chars "function " ++ (name ++ rest))[name.length + 1]?
          = (chars "function ")[name.length + 1]? :=
        List.getElem?_append_left (by omega)
      rw [hassoc, hlhs, hrhs] at hkey
      have hmem : '(' ∈ chars "function " := List.getElem?_mem hkey
      exact absurd hmem (by decide)
    · rcases Nat.eq_or_lt_of_le h8 with h8' | h8'
      · have hi : 9 < (name ++ chars " (").length := by
          rw [List.length_append, len2]
          omega
        have hkey := getElem?_of_jsStartsWith h' hi
        have hrhs : (name ++ chars " (")[9]? = some '(' := by
          rw [List.getElem?_append_right (by omega)]
          have hsub : 9 - name.length = 1 := by omega
          rw [hsub]
          rfl
        have hlhs : (chars "function " ++ (name ++ rest))[9]? = (name ++ rest)[0]? := by
          rw [List.getElem?_append_right (by omega), len9]
        have hn0 : (name ++ rest)[0]? = name[0]? := List.getElem?_append_left hL
        rw [hassoc, hlhs, hn0, hrhs] at hkey
        have hmem : '(' ∈ name := List.getElem?_mem hkey
        exact absurd (hall '(' hmem) (by decide)
      · have hi : 8 < (name ++ chars " (").length := by
          rw [List.length_append, len2]
          omega
        have hkey := getElem?_of_jsStartsWith h' hi
        have hrhs : (name ++ chars " (")[8]? = name[8]? :=
          List.getElem?_append_left (by omega)
        have hlhs : (chars "function " ++ (name ++ rest))[8]? = some ' ' := by
          rw [List.getElem?_append_left (by omega)]
          rfl
        rw [hassoc, hlhs, hrhs] at hkey
        have hmem : ' ' ∈ name := List.getElem?_mem hkey.symm
        exact absurd (hall ' ' hmem) (by decide)

theorem normalizeFnSrc_of_not_shorthand (k s : Str)
    (h : ¬ (jsStartsWith s (k ++ chars "(") || jsStartsWith s (k ++ chars " (")) = true) :
    normalizeFnSrc k s = s := by
  rw [normalizeFnSrc, if_neg h]

/-- Normalization is idempotent: the emitted named-function form is not
itself a shorthand for an identifier key. -/
theorem normalizeFnSrc_stable (k s : Str) (hne : k ≠ [])
    (hall : ∀ c ∈ k, identChar c = true) :
    normalizeFnSrc k (normalizeFnSrc k s) = normalizeFnSrc k s := by
  by_cases hsh : (jsStartsWith s (k ++ chars "(") || jsStartsWith s (k ++ chars " (")) = true
  · have hinner : normalizeFnSrc k s = chars "function " ++ k ++ s.drop (idxOfParen s) := by
      rw [normalizeFnSrc, if_pos hsh]
    rw [hinner]
    apply normalizeFnSrc_of_not_shorthand
    have hforms := not_starts_function_form k (s.drop (idxOfParen s)) hne hall
    have h1 := hforms.1
    have h2 := hforms.2
    rw [List.append_assoc] at h1 h2
    simp [h1, h2]
  · have hinner := normalizeFnSrc_of_not_shorthand k s hsh
    rw [hinner]
    exact hinner

theorem handleFunction_stable (k s : Str) (hne : k ≠ [])
    (hall : ∀ c ∈ k, identChar c = true) :
    handleFunction k (normalizeFnSrc k s) = handleFunction k s := by
  rw [handleFunction, handleFunction, normalizeFnSrc_stable k s hne hall]

theorem denoteFun_function_form (u : Str) :
    denoteFun (chars "function " ++ u) = chars "function " ++ u := by
  have hsplit : chars "function " ++ u = chars "function" ++ (' ' :: u) := by
    rw [show chars "function " = chars "function" ++ [' '] from rfl, List.append_assoc]
    rfl
  have hnm : (chars "function " ++ u).takeWhile identChar = chars "function" := by
    rw [hsplit]
    exact takeWhile_append_stop _ _ _ (by decide) (by decide)
  simp only [denoteFun]
  rw [hnm]
  simp

theorem denoteFun_shorthand (k s : Str) (hid : isJsIdent k = true)
    (hsh : jsStartsWith s (k ++ chars "(") = true ∨ jsStartsWith s (k ++ chars " (") = true) :
    denoteFun s = normalizeFnSrc k s := by
  obtain ⟨hne, hall, hnf, hna⟩ := isJsIdent_parts hid
  have hke : k.isEmpty = false := by
    cases k with
    | nil => exact absurd rfl hne
    | cons a l => rfl
  have hbne1 : (k != chars "function") = true := bne_iff_ne.2 hnf
  have hbne2 : (k != chars "async") = true := bne_iff_ne.2 hna
  rcases hsh with h1 | h1
  · obtain ⟨t, hts⟩ := eq_append_of_jsStartsWith h1
    have hs : s = k ++ ('(' :: t) := by
      rw [hts, List.append_assoc]
      rfl
    have hnm : s.takeWhile identChar = k := by
      rw [hs]
      exact takeWhile_append_stop _ _ _ hall (by decide)
    have hdrop : s.drop k.length = '(' :: t := by
      conv_lhs => rw [hs]
      exact List.drop_left _ _
    have hstart : jsStartsWith ('(' :: t) (chars "(") = true := rfl
    simp only [denoteFun]
    rw [hnm, hdrop, if_pos (by rw [hke, hbne1, hbne2, hstart]; rfl)]
    rw [normalizeFnSrc, if_pos (by simp [h1])]
  · obtain ⟨t, hts⟩ := eq_append_of_jsStartsWith h1
    have hs : s = k ++ (' ' :: '(' :: t) := by
      rw [hts, List.append_assoc]
      rfl
    have hnm : s.takeWhile identChar = k := by
      rw [hs]
      exact takeWhile_append_stop _ _ _ hall (by decide)
    have hdrop : s.drop k.length = ' ' :: '(' :: t := by
      conv_lhs => rw [hs]
      exact List.drop_left _ _
    have hstart : jsStartsWith (' ' :: '(' :: t) (chars " (") = true := rfl
    simp only [denoteFun]
    rw [hnm, hdrop, if_pos (by rw [hke, hbne1, hbne2, hstart]; simp)]
    rw [normalizeFnSrc, if_pos (by simp [h1])]

/-- A function source usable as the value of property `k`: either the
shorthand-method spelling for `k`, or an expression form (arrow or
`function` expression) that denotes itself and does not accidentally
parse as the shorthand for `k`. -/
def WellFormedFnSrc (k s : Str) : Prop :=
  (jsStartsWith s (k ++ chars "(") = true ∨ jsStartsWith s (k ++ chars " (") = true) ∨
  (denoteFun s = s ∧ jsStartsWith s (k ++ chars "(") = false ∧
    jsStartsWith s (k ++ chars " (") = false)

instance (k s : Str) : Decidable (WellFormedFnSrc k s) := by
  unfold WellFormedFnSrc
  infer_instance

/-- Serialization preserves behavior: the emitted source form denotes
the same function as the original source. -/
theorem denoteFun_normalizeFnSrc (k s : Str) (hid : isJsIdent k = true)
    (hwf : WellFormedFnSrc k s) : denoteFun (normalizeFnSrc k s) = denoteFun s := by
  rcases hwf with hsh | ⟨hfix, hn1, hn2⟩
  · have hnorm : normalizeFnSrc k s = chars "function " ++ k ++ s.drop (idxOfParen s) := by
      rw [normalizeFnSrc, if_pos (by rcases hsh with h | h <;> simp [h])]
    rw [hnorm, List.append_assoc, denoteFun_function_form, ← List.append_assoc, ← hnorm]
    rw [denoteFun_shorthand k s hid hsh]
  · rw [normalizeFnSrc, if_neg (by simp [hn1, hn2])]

/-! ## The loader applied to a created artifact -/

/-- Looking a name up in the factory's parameter environment. -/
def envLookup (o : LoadedObj) (k : Str) : JSVal := getProp o.env k

theorem ne_de : chars "decode" ≠ chars "encode" := by decide
theorem ne_pe : chars "preencode" ≠ chars "encode" := by decide
theorem ne_ed : chars "encode" ≠ chars "decode" := by decide
theorem ne_pd : chars "preencode" ≠ chars "decode" := by decide
theorem ne_ep : chars "encode" ≠ chars "preencode" := by decide
theorem ne_dp : chars "decode" ≠ chars "preencode" := by decide

/-- Property lookup on a loaded object ignores the trailing `name` and
`hash` entries for other keys. -/
theorem evalFactory_get (a : Artifact) (args : List JSVal) (k : Str)
    (hk1 : k ≠ chars "name") (hk2 : k ≠ chars "hash") :
    (evalFactory a args).get k = getProp (a.entries.map fun p => (p.1, JSVal.fn p.2)) k := by
  rw [LoadedObj.get]
  simp only [evalFactory]
  rw [getProp_append_left]
  · rw [getProp_append_left]
    intro kv hkv
    rcases hnp : a.nameProp with _ | m
    · rw [hnp] at hkv
      simp at hkv
    · rw [hnp] at hkv
      simp at hkv
      subst hkv
      exact fun he => hk1 he.symm
  · intro kv hkv
    simp at hkv
    subst hkv
    exact fun he => hk2 he.symm

theorem depEntries_keys_ne (d : DepMap) (k : Str)
    (hdisj : ∀ kv ∈ d, kv.1 ≠ k) :
    ∀ kv ∈ (depEntries d).map fun p => (p.1, JSVal.fn p.2), kv.1 ≠ k := by
  intro kv hkv
  rcases List.mem_map.1 hkv with ⟨p, hp, rfl⟩
  rcases List.mem_map.1 hp with ⟨kv0, hkv0, rfl⟩
  exact hdisj kv0 (List.mem_of_mem_filter hkv0)

theorem getProp_capEntries_encode (e : EncoderDef) :
    getProp ((capEntries e).map fun p => (p.1, JSVal.fn p.2)) (chars "encode")
      = (match e.encode with
         | some f => JSVal.fn (normalizeFnSrc (chars "encode") f) | none => .undefined) := by
  rcases he : e.encode with _ | f <;> rcases hd : e.decode with _ | g <;>
    rcases hp : e.preencode with _ | q <;>
    simp [capEntries, he, hd, hp, getProp, ne_de, ne_pe]

theorem getProp_capEntries_decode (e : EncoderDef) :
    getProp ((capEntries e).map fun p => (p.1, JSVal.fn p.2)) (chars "decode")
      = (match e.decode with
         | some f => JSVal.fn (normalizeFnSrc (chars "decode") f) | none => .undefined) := by
  rcases he : e.encode with _ | f <;> rcases hd : e.decode with _ | g <;>
    rcases hp : e.preencode with _ | q <;>
    simp [capEntries, he, hd, hp, getProp, ne_ed, ne_pd]

theorem getProp_capEntries_preencode (e : EncoderDef) :
    getProp ((capEntries e).map fun p => (p.1, JSVal.fn p.2)) (chars "preencode")
      = (match e.preencode with
         | some f => JSVal.fn (normalizeFnSrc (chars "preencode") f) | none => .undefined) := by
  rcases he : e.encode with _ | f <;> rcases hd : e.decode with _ | g <;>
    rcases hp : e.preencode with _ | q <;>
    simp [capEntries, he, hd, hp, getProp, ne_ep, ne_dp]

theorem createdArtifact_entries (n_ : Str) (e : EncoderDef) (d : DepMap) (h : Str → Str) :
    (createdArtifact n_ e d h).entries = capEntries e ++ depEntries d := rfl

/-- The capability a loaded created artifact exposes under each of the
three capability names is the normalized create-time capability,
provided no dependency key shadows a capability name. -/
theorem evalFactory_created_caps (n_ : Str) (e : EncoderDef) (d : DepMap) (h : Str → Str)
    (args : List JSVal)
    (hdisj : ∀ kv ∈ d, kv.1 ≠ chars "encode" ∧ kv.1 ≠ chars "decode" ∧
      kv.1 ≠ chars "preencode") :
    (evalFactory (createdArtifact n_ e d h) args).get (chars "encode")
        = (match e.encode with
           | some f => JSVal.fn (normalizeFnSrc (chars "encode") f) | none => .undefined)
    ∧ (evalFactory (createdArtifact n_ e d h) args).get (chars "decode")
        = (match e.decode with
           | some f => JSVal.fn (normalizeFnSrc (chars "decode") f) | none => .undefined)
    ∧ (evalFactory (createdArtifact n_ e d h) args).get (chars "preencode")
        = (match e.preencode with
           | some f => JSVal.fn (normalizeFnSrc (chars "preencode") f) | none => .undefined) := by
  refine ⟨?_, ?_, ?_⟩
  · rw [evalFactory_get _ _ _ (by decide) (by decide), createdArtifact_entries,
      List.map_append, getProp_append_left _ _ _
        (depEntries_keys_ne d _ fun kv hkv => (hdisj kv hkv).1),
      getProp_capEntries_encode]
  · rw [evalFactory_get _ _ _ (by decide) (by decide), createdArtifact_entries,
      List.map_append, getProp_append_left _ _ _
        (depEntries_keys_ne d _ fun kv hkv => (hdisj kv hkv).2.1),
      getProp_capEntries_decode]
  · rw [evalFactory_get _ _ _ (by decide) (by decide), createdArtifact_entries,
      List.map_append, getProp_append_left _ _ _
        (depEntries_keys_ne d _ fun kv hkv => (hdisj kv hkv).2.2),
      getProp_capEntries_preencode]

theorem hf_stable_encode (s : Str) :
    handleFunction (chars "encode") (normalizeFnSrc (chars "encode") s)
      = handleFunction (chars "encode") s :=
  handleFunction_stable _ s (by decide) (by decide)

theorem hf_stable_decode (s : Str) :
    handleFunction (chars "decode") (normalizeFnSrc (chars "decode") s)
      = handleFunction (chars "decode") s :=
  handleFunction_stable _ s (by decide) (by decide)

theorem hf_stable_preencode (s : Str) :
    handleFunction (chars "preencode") (normalizeFnSrc (chars "preencode") s)
      = handleFunction (chars "preencode") s :=
  handleFunction_stable _ s (by decide) (by decide)

/-- The canonical text is unchanged when each capability is replaced by
its normalized source form (the key fact behind the round trip: loading
re-serializes the normalized capabilities to the same text). -/
theorem gfs_of_normalized (e e2 : EncoderDef) (d : DepMap)
    (hE : e2.encode = e.encode.map (normalizeFnSrc (chars "encode")))
    (hD : e2.decode = e.decode.map (normalizeFnSrc (chars "decode")))
    (hP : e2.preencode = e.preencode.map (normalizeFnSrc (chars "preencode"))) :
    generateFunctionsString e2 d = generateFunctionsString e d := by
  rcases he : e.encode with _ | f <;> rcases hd : e.decode with _ | g <;>
    rcases hp : e.preencode with _ | q <;>
    rw [he] at hE <;> rw [hd] at hD <;> rw [hp] at hP <;>
    simp only [Option.map_none', Option.map_some'] at hE hD hP <;>
    simp only [generateFunctionsString, hE, hD, hP, he, hd, hp,
      hf_stable_encode, hf_stable_decode, hf_stable_preencode]

/-- The hash `load` recomputes for a created artifact equals the created
hash when the resolved hasher and dependency map are those used at
creation (and no dependency key shadows a capability name). -/
theorem loadComputedHash_created (n_ : Str) (e : EncoderDef) (d : DepMap) (h : Str → Str)
    (hod : HasherOrDeps) (deps' : DepMap)
    (hres : resolveHasherDeps hod deps' = (h, d))
    (hdisj : ∀ kv ∈ d, kv.1 ≠ chars "encode" ∧ kv.1 ≠ chars "decode" ∧
      kv.1 ≠ chars "preencode") :
    loadComputedHash (createdArtifact n_ e d h) hod deps' = generateHash e d h := by
  obtain ⟨hE, hD, hP⟩ := evalFactory_created_caps n_ e d h
    (loadArgs hod deps') hdisj
  rw [loadComputedHash, loadDeps, loadHasher, hres, generateHash, generateHash]
  apply congrArg
  apply gfs_of_normalized e _ d
  · simp only [encoderOfObj, loadObj]
    rw [hE]
    rcases e.encode with _ | f <;> rfl
  · simp only [encoderOfObj, loadObj]
    rw [hD]
    rcases e.decode with _ | f <;> rfl
  · simp only [encoderOfObj, loadObj]
    rw [hP]
    rcases e.preencode with _ | f <;> rfl

/-! ## Create results, packaging round trip, and remaining support lemmas -/

theorem generateEncodingUri_ok_parts {n_ : Str} {e : EncoderDef} {d : DepMap}
    {h : Str → Str} {r : CreateResult}
    (hok : generateEncodingUri n_ e d h = .ok r) :
    r.hash = generateHash e d h ∧
    (∀ c ∈ generateModuleCode n_ e d h, c.toNat < 256) ∧
    r.uri = chars "data:text/javascript;base64," ++
      b64Encode ((generateModuleCode n_ e d h).map Char.toNat) := by
  rw [generateEncodingUri, toDataUri, btoa] at hok
  by_cases hall : (generateModuleCode n_ e d h).all (fun c => decide (c.toNat < 256)) = true
  · rw [if_pos hall] at hok
    have hr : CreateResult.mk
        (chars "data:text/javascript;base64," ++
          b64Encode ((generateModuleCode n_ e d h).map Char.toNat))
        (generateHash e d h) = r := by
      simpa [Except.map] using hok
    refine ⟨?_, ?_, ?_⟩
    · rw [← hr]
    · intro c hc
      exact of_decide_eq_true (List.all_eq_true.1 hall c hc)
    · rw [← hr]
  · rw [if_neg hall] at hok
    simp [Except.map] at hok

theorem generateEncodingUri_ok_of_latin (n_ : Str) (e : EncoderDef) (d : DepMap)
    (h : Str → Str) (hlat : ∀ c ∈ generateModuleCode n_ e d h, c.toNat < 256) :
    generateEncodingUri n_ e d h = .ok
      ⟨chars "data:text/javascript;base64," ++
        b64Encode ((generateModuleCode n_ e d h).map Char.toNat),
       generateHash e d h⟩ := by
  rw [generateEncodingUri, toDataUri, btoa,
    if_pos (List.all_eq_true.2 fun c hc => decide_eq_true (hlat c hc))]
  rfl

theorem unpackDataUri_payload (text : Str) (hl : ∀ c ∈ text, c.toNat < 256) :
    unpackDataUri (chars "data:text/javascript;base64," ++
      b64Encode (text.map Char.toNat)) = text := by
  rw [unpackDataUri, List.drop_left, atob_b64Encode text hl]

theorem latin_append {a b : Str} (ha : ∀ c ∈ a, c.toNat < 256) (hb : ∀ c ∈ b, c.toNat < 256) :
    ∀ c ∈ a ++ b, c.toNat < 256 := by
  intro c hc
  rcases List.mem_append.1 hc with h | h
  exacts [ha c h, hb c h]

theorem mem_joinSep {sep : Str} {l : List Str} {c : Char} (hc : c ∈ joinSep sep l) :
    c ∈ sep ∨ ∃ x ∈ l, c ∈ x := by
  induction l with
  | nil => simp [joinSep] at hc
  | cons x xs ih =>
    cases xs with
    | nil => exact Or.inr ⟨x, by simp, hc⟩
    | cons y ys =>
      rw [joinSep] at hc
      rcases List.mem_append.1 hc with h1 | h2
      · rcases List.mem_append.1 h1 with ha | hb
        · exact Or.inr ⟨x, by simp, ha⟩
        · exact Or.inl hb
      · rcases ih h2 with h | ⟨z, hz, hcz⟩
        · exact Or.inl h
        · exact Or.inr ⟨z, by simp [List.mem_cons.1 hz], hcz⟩

/-- Everything the generated module text is built from stays below
U+0100, so the whole text does. -/
theorem generateModuleCode_latin (n_ : Str) (e : EncoderDef) (d : DepMap) (h : Str → Str)
    (hn : ∀ c ∈ n_, c.toNat < 256)
    (hen : ∀ c ∈ e.name.getD [], c.toNat < 256)
    (hk : ∀ k ∈ d.map Prod.fst, ∀ c ∈ k, c.toNat < 256)
    (hfs : ∀ c ∈ generateFunctionsString e d, c.toNat < 256)
    (hh : ∀ c ∈ generateHash e d h, c.toNat < 256) :
    ∀ c ∈ generateModuleCode n_ e d h, c.toNat < 256 := by
  have htempl1 : ∀ c ∈ chars "\nexport default function (cenc, b4a", c.toNat < 256 := by decide
  have htempl2 : ∀ c ∈ chars ") \x7b\n    return \x7b\n        ", c.toNat < 256 := by decide
  have htempl3 : ∀ c ∈ chars "\n    \x7d;\n\x7d", c.toNat < 256 := by decide
  have hcomma : ∀ c ∈ chars ",", c.toNat < 256 := by decide
  have hcommanl : ∀ c ∈ chars ",\n", c.toNat < 256 := by decide
  have hkeys : ∀ k ∈ sortKeys (d.map Prod.fst), ∀ c ∈ k, c.toNat < 256 := by
    intro k hks
    exact hk k ((sortKeys_perm _).subset hks)
  have hdepstr : ∀ c ∈ (if (sortKeys (d.map Prod.fst)).length ≠ 0 then
      chars "," ++ joinSep (chars ",") (sortKeys (d.map Prod.fst)) else []), c.toNat < 256 := by
    by_cases hlen : (sortKeys (d.map Prod.fst)).length ≠ 0
    · rw [if_pos hlen]
      apply latin_append hcomma
      intro c hc
      rcases mem_joinSep hc with hm | ⟨x, hx, hcx⟩
      · exact hcomma c hm
      · exact hkeys x hx c hcx
    · rw [if_neg hlen]
      intro c hc
      simp at hc
  have heff : ∀ c ∈ (if n_ ≠ [] then n_ else e.name.getD []), c.toNat < 256 := by
    by_cases hn0 : n_ ≠ []
    · rw [if_pos hn0]; exact hn
    · rw [if_neg hn0]; exact hen
  have hnameE : ∀ c ∈ (if (if n_ ≠ [] then n_ else e.name.getD []) ≠ [] then
      chars "name: \"" ++ (if n_ ≠ [] then n_ else e.name.getD []) ++ chars "\"" else []),
      c.toNat < 256 := by
    by_cases hne : (if n_ ≠ [] then n_ else e.name.getD []) ≠ []
    · rw [if_pos hne]
      exact latin_append (latin_append (by decide) heff) (by decide)
    · rw [if_neg hne]
      intro c hc
      simp at hc
  have hhashE : ∀ c ∈ chars "hash: \"" ++ generateHash e d h ++ chars "\"", c.toNat < 256 :=
    latin_append (latin_append (by decide) hh) (by decide)
  have hprops : ∀ c ∈ joinSep (chars ",\n")
      (([generateFunctionsString e d,
         (if (if n_ ≠ [] then n_ else e.name.getD []) ≠ [] then
            chars "name: \"" ++ (if n_ ≠ [] then n_ else e.name.getD []) ++ chars "\"" else []),
         chars "hash: \"" ++ generateHash e d h ++ chars "\""]).filter fun s => !s.isEmpty),
      c.toNat < 256 := by
    intro c hc
    rcases mem_joinSep hc with hm | ⟨x, hx, hcx⟩
    · exact hcommanl c hm
    · have hx' := List.mem_of_mem_filter hx
      rcases List.mem_cons.1 hx' with rfl | hx2
      · exact hfs c hcx
      · rcases List.mem_cons.1 hx2 with rfl | hx3
        · exact hnameE c hcx
        · rcases List.mem_cons.1 hx3 with rfl | hx4
          · exact hhashE c hcx
          · simp at hx4
  simp only [generateModuleCode]
  exact latin_append (latin_append (latin_append (latin_append htempl1 hdepstr) htempl2)
    hprops) htempl3

theorem filter_callable_nil {d : DepMap} (hnc : ∀ kv ∈ d, kv.2.isFunction = false) :
    d.filter (fun kv => kv.2.isFunction) = [] := by
  rw [List.filter_eq_nil]
  intro kv hkv
  simp [hnc kv hkv]

/-- An encoder with no capabilities and no callable dependency values
serializes to the empty string. -/
theorem gfs_empty (e : EncoderDef) (d : DepMap)
    (he : e.encode = none) (hd : e.decode = none) (hp : e.preencode = none)
    (hnc : ∀ kv ∈ d, kv.2.isFunction = false) :
    generateFunctionsString e d = [] := by
  simp [generateFunctionsString, he, hd, hp, filter_callable_nil hnc]

theorem joinSep_length_append_single (sep : Str) (l : List Str) (x : Str) :
    (joinSep sep (l ++ [x])).length
      = (joinSep sep l).length + (if l.isEmpty then 0 else sep.length) + x.length := by
  induction l with
  | nil => simp [joinSep]
  | cons y ys ih =>
    cases ys with
    | nil =>
      simp [joinSep, List.length_append]
      omega
    | cons z zs =>
      rw [List.cons_append, List.cons_append, joinSep]
      rw [List.cons_append] at ih
      simp only [joinSep, List.length_append, List.isEmpty_cons] at ih ⊢
      omega

theorem handleFunction_length_pos (k s : Str) : 0 < (handleFunction k s).length := by
  rw [handleFunction]
  simp only [List.length_append]
  have h2 : (chars ": ").length = 2 := rfl
  omega

/-- The canonical text only depends on the callable dependency entries. -/
theorem gfs_filter_callable (e : EncoderDef) (d : DepMap) :
    generateFunctionsString e (d.filter fun kv => kv.2.isFunction)
      = generateFunctionsString e d := by
  simp only [generateFunctionsString, List.filter_filter, Bool.and_self]

theorem depEntries_mem {d : DepMap} {k s : Str} (hmem : (k, JSVal.fn s) ∈ d) :
    (k, JSVal.fn (normalizeFnSrc k s)) ∈ (depEntries d).map fun p => (p.1, JSVal.fn p.2) := by
  rw [depEntries]
  exact List.mem_map.2 ⟨(k, normalizeFnSrc k s),
    List.mem_map.2 ⟨(k, JSVal.fn s), List.mem_filter.2 ⟨hmem, rfl⟩, rfl⟩, rfl⟩

theorem depEntries_keys_nodup {d : DepMap} (hnodup : (d.map Prod.fst).Nodup) :
    (((depEntries d).map fun p => (p.1, JSVal.fn p.2)).map Prod.fst).Nodup := by
  have hkeys : ((depEntries d).map fun p => (p.1, JSVal.fn p.2)).map Prod.fst
      = (d.filter fun kv => kv.2.isFunction).map Prod.fst := by
    simp [depEntries, List.map_map, Function.comp_def]
  rw [hkeys]
  exact hnodup.sublist ((List.filter_sublist d).map Prod.fst)

/-- The capability a loaded created artifact exposes for a callable
dependency key is the normalized create-time source. -/
theorem evalFactory_created_dep (n_ : Str) (e : EncoderDef) (d : DepMap) (h : Str → Str)
    (args : List JSVal) (k s : Str)
    (hnodup : (d.map Prod.fst).Nodup)
    (hmem : (k, JSVal.fn s) ∈ d)
    (hk1 : k ≠ chars "name") (hk2 : k ≠ chars "hash") :
    (evalFactory (createdArtifact n_ e d h) args).get k
      = .fn (normalizeFnSrc k s) := by
  rw [evalFactory_get _ _ _ hk1 hk2, createdArtifact_entries, List.map_append]
  rw [getProp_append_right _ _ _ ⟨_, depEntries_mem hmem, rfl⟩]
  exact getProp_of_nodup _ _ _ (depEntries_keys_nodup hnodup) (depEntries_mem hmem)

/-- Loading a created artifact succeeds when the hasher and dependency
map resolved at load time are the ones used at creation and no
dependency key shadows a capability name. -/
theorem load_created_ok (n_ : Str) (e : EncoderDef) (d : DepMap) (h : Str → Str)
    (hod : HasherOrDeps) (deps' : DepMap)
    (hres : resolveHasherDeps hod deps' = (h, d))
    (hdisj : ∀ kv ∈ d, kv.1 ≠ chars "encode" ∧ kv.1 ≠ chars "decode" ∧
      kv.1 ≠ chars "preencode") :
    importEncodingFromUri (createdArtifact n_ e d h) (generateHash e d h) hod deps'
      = .ok (cencFrom (loadObj (createdArtifact n_ e d h) hod deps')) := by
  rw [importEncodingFromUri]
  simp only [importEncodingFromUriTrace]
  rw [if_pos (loadComputedHash_created n_ e d h hod deps' hres hdisj)]

/-- Variant of the capability lookup when there are no serialized
dependency entries (all dependency values non-callable). -/
theorem evalFactory_created_caps_nodeps (n_ : Str) (e : EncoderDef) (d : DepMap)
    (h : Str → Str) (args : List JSVal) (hdeps : depEntries d = []) :
    (evalFactory (createdArtifact n_ e d h) args).get (chars "encode")
        = (match e.encode with
           | some f => JSVal.fn (normalizeFnSrc (chars "encode") f) | none => .undefined)
    ∧ (evalFactory (createdArtifact n_ e d h) args).get (chars "decode")
        = (match e.decode with
           | some f => JSVal.fn (normalizeFnSrc (chars "decode") f) | none => .undefined)
    ∧ (evalFactory (createdArtifact n_ e d h) args).get (chars "preencode")
        = (match e.preencode with
           | some f => JSVal.fn (normalizeFnSrc (chars "preencode") f) | none => .undefined) := by
  refine ⟨?_, ?_, ?_⟩
  · rw [evalFactory_get _ _ _ (by decide) (by decide), createdArtifact_entries, hdeps,
      List.append_nil, getProp_capEntries_encode]
  · rw [evalFactory_get _ _ _ (by decide) (by decide), createdArtifact_entries, hdeps,
      List.append_nil, getProp_capEntries_decode]
  · rw [evalFactory_get _ _ _ (by decide) (by decide), createdArtifact_entries, hdeps,
      List.append_nil, getProp_capEntries_preencode]

/-- The hash `load` recomputes for a created artifact whose dependency
maps (create-time and load-time) both carry no callable values equals
the created hash. -/
theorem loadComputedHash_created_nodeps (n_ : Str) (e : EncoderDef) (d : DepMap)
    (h : Str → Str) (hod : HasherOrDeps) (deps' : DepMap) (d₂ : DepMap)
    (hres : resolveHasherDeps hod deps' = (h, d₂))
    (h0 : d.filter (fun kv => kv.2.isFunction) = [])
    (h2 : d₂.filter (fun kv => kv.2.isFunction) = []) :
    loadComputedHash (createdArtifact n_ e d h) hod deps' = generateHash e d h := by
  have hdeps : depEntries d = [] := by rw [depEntries, h0]; rfl
  obtain ⟨hE, hD, hP⟩ := evalFactory_created_caps_nodeps n_ e d h
    (loadArgs hod deps') hdeps
  rw [loadComputedHash, loadDeps, loadHasher, hres, generateHash, generateHash]
  apply congrArg
  rw [← gfs_filter_callable _ d₂, h2, ← gfs_filter_callable e d, h0]
  apply gfs_of_normalized e _ []
  · simp only [encoderOfObj, loadObj]
    rw [hE]
    rcases e.encode with _ | f <;> rfl
  · simp only [encoderOfObj, loadObj]
    rw [hD]
    rcases e.decode with _ | f <;> rfl
  · simp only [encoderOfObj, loadObj]
    rw [hP]
    rcases e.preencode with _ | f <;> rfl

/-! ## Claims -/

/-- C5: Source-form normalization: for every capability or
function-valued dependency whose source begins with its own name in
shorthand-method form (`name(` or `name (`), serialization emits
`name: function name` followed by the parameter list and body — exactly
the canonical shape produced for a named function of that name; every
other source form (arrow functions and explicit function expressions)
is emitted verbatim after `name: `, so syntactically different verbatim
spellings yield different canonical text. -/
theorem c5_source_form_normalization (name src : Str) (hid : isJsIdent name = true) :
    ((jsStartsWith src (name ++ chars "(") = true ∨
      jsStartsWith src (name ++ chars " (") = true) →
        handleFunction name src
          = name ++ chars ": function " ++ name ++ src.drop (idxOfParen src)
        ∧ handleFunction name src
          = handleFunction name (chars "function " ++ name ++ src.drop (idxOfParen src)))
    ∧ (¬ (jsStartsWith src (name ++ chars "(") = true ∨
          jsStartsWith src (name ++ chars " (") = true) →
        handleFunction name src = name ++ chars ": " ++ src)
    ∧ (∀ src₂ : Str,
        ¬ (jsStartsWith src (name ++ chars "(") = true ∨
           jsStartsWith src (name ++ chars " (") = true) →
        ¬ (jsStartsWith src₂ (name ++ chars "(") = true ∨
           jsStartsWith src₂ (name ++ chars " (") = true) →
        src ≠ src₂ → handleFunction name src ≠ handleFunction name src₂) := by
  obtain ⟨hne, hall, _, _⟩ := isJsIdent_parts hid
  refine ⟨?_, ?_, ?_⟩
  · intro hsh
    have hpos : (jsStartsWith src (name ++ chars "(") ||
        jsStartsWith src (name ++ chars " (")) = true := by
      rcases hsh with hh | hh <;> simp [hh]
    constructor
    · rw [handleFunction, normalizeFnSrc, if_pos hpos]
      rw [show chars ": function " = chars ": " ++ chars "function " from rfl]
      simp [List.append_assoc]
    · have hforms := not_starts_function_form name (src.drop (idxOfParen src)) hne hall
      have h1f := hforms.1
      have h2f := hforms.2
      rw [List.append_assoc] at h1f h2f
      rw [handleFunction, handleFunction, normalizeFnSrc, normalizeFnSrc, if_pos hpos,
        if_neg (by simp [h1f, h2f])]
  · intro hsh
    rw [handleFunction, normalizeFnSrc, if_neg (by simpa using hsh)]
  · intro src₂ h1 h2 hne12 heq
    apply hne12
    rw [handleFunction, handleFunction, normalizeFnSrc, normalizeFnSrc,
      if_neg (by simpa using h1), if_neg (by simpa using h2)] at heq
    exact List.append_cancel_left heq

/-- C5 witness: the shorthand method `hello(x) { return 1 }` stored
under key `hello` serializes exactly like the named function
`function hello(x) { return 1 }`. -/
theorem c5_witness :
    isJsIdent (chars "hello") = true ∧
    handleFunction (chars "hello") (chars "hello(x) { return 1 }")
      = handleFunction (chars "hello") (chars "function hello(x) { return 1 }") := by
  refine ⟨by decide, ?_⟩
  have h := (c5_source_form_normalization (chars "hello") (chars "hello(x) { return 1 }")
    (by decide)).1 (Or.inl (by decide))
  have heq : chars "function " ++ chars "hello" ++
      (chars "hello(x) { return 1 }").drop (idxOfParen (chars "hello(x) { return 1 }"))
      = chars "function hello(x) { return 1 }" := by decide
  rw [← heq]
  exact h.2

/-- C2: Integrity enforcement: `load` returns an encoder exactly when
the recomputed hash equals the expected hash; on any mismatch it throws
an error whose message contains "hash mismatch" and hands nothing to
the caller, and in particular changing any single character of the
correct hash makes it fail. -/
theorem c2_integrity_enforcement (a : Artifact) (expected : Str)
    (hod : HasherOrDeps) (deps : DepMap) :
    ((∃ o, importEncodingFromUri a expected hod deps = .ok o) ↔
        loadComputedHash a hod deps = expected)
    ∧ (loadComputedHash a hod deps ≠ expected →
        importEncodingFromUri a expected hod deps
          = .error (chars "Data integrity check failed: hash mismatch.")
        ∧ List.IsInfix (chars "hash mismatch")
            (loadErrorMsg (importEncodingFromUri a expected hod deps)))
    ∧ (∀ i : Nat, ∀ c b : Char,
        (loadComputedHash a hod deps)[i]? = some b → c ≠ b →
        importEncodingFromUri a ((loadComputedHash a hod deps).set i c) hod deps
          = .error (chars "Data integrity check failed: hash mismatch.")) := by
  refine ⟨⟨?_, ?_⟩, ?_, ?_⟩
  · rintro ⟨o, ho⟩
    by_cases hce : loadComputedHash a hod deps = expected
    · exact hce
    · rw [importEncodingFromUri] at ho
      simp only [importEncodingFromUriTrace] at ho
      rw [if_neg hce] at ho
      exact absurd ho (by simp)
  · intro hce
    refine ⟨cencFrom (loadObj a hod deps), ?_⟩
    rw [importEncodingFromUri]
    simp only [importEncodingFromUriTrace]
    rw [if_pos hce]
  · intro hce
    have herr : importEncodingFromUri a expected hod deps
        = .error (chars "Data integrity check failed: hash mismatch.") := by
      rw [importEncodingFromUri]
      simp only [importEncodingFromUriTrace]
      rw [if_neg hce]
    refine ⟨herr, ?_⟩
    rw [herr]
    decide
  · intro i c b hb hcb
    have hne : (loadComputedHash a hod deps).set i c ≠ loadComputedHash a hod deps := by
      intro he
      have hi : i < (loadComputedHash a hod deps).length := by
        by_contra hni
        rw [List.getElem?_eq_none (by omega)] at hb
        exact absurd hb (by simp)
      have h1 : ((loadComputedHash a hod deps).set i c)[i]? = some c :=
        List.getElem?_set_eq hi
      rw [he, hb] at h1
      exact hcb (Option.some.inj h1).symm
    rw [importEncodingFromUri]
    simp only [importEncodingFromUriTrace]
    rw [if_neg fun he => hne he.symm]

/-- C2 witness: at a concrete artifact and a wrong expected hash, load
fails with the hash-mismatch error. -/
theorem c2_witness :
    loadComputedHash ⟨[], [], none, chars "x"⟩ (.objArg []) [] ≠ chars "zz" ∧
    importEncodingFromUri ⟨[], [], none, chars "x"⟩ (chars "zz") (.objArg []) []
      = .error (chars "Data integrity check failed: hash mismatch.") := by
  refine ⟨by decide, ?_⟩
  exact ((c2_integrity_enforcement ⟨[], [], none, chars "x"⟩ (chars "zz")
    (.objArg []) []).2.1 (by decide)).1

/-- C10: Evaluation precedes verification: the loader's effect sequence
is module evaluation, then the factory call, then the hash comparison —
so the artifact's code runs before the integrity check, even for an
artifact whose hash does not match; the check only withholds the
resulting object from the caller. -/
theorem c10_evaluation_precedes_verification (a : Artifact) (expected : Str)
    (hod : HasherOrDeps) (deps : DepMap) :
    (importEncodingFromUriTrace a expected hod deps).1
        = [.evalArtifact a, .callFactory (loadArgs hod deps),
           .compareHash (loadComputedHash a hod deps) expected]
    ∧ (∀ i j : Nat,
        (importEncodingFromUriTrace a expected hod deps).1[i]?
            = some (.evalArtifact a) →
        (importEncodingFromUriTrace a expected hod deps).1[j]?
            = some (.compareHash (loadComputedHash a hod deps) expected) →
        i < j)
    ∧ (loadComputedHash a hod deps ≠ expected →
        importEncodingFromUri a expected hod deps
            = .error (chars "Data integrity check failed: hash mismatch.")
        ∧ LoadEvent.evalArtifact a ∈ (importEncodingFromUriTrace a expected hod deps).1
        ∧ LoadEvent.callFactory (loadArgs hod deps)
            ∈ (importEncodingFromUriTrace a expected hod deps).1) := by
  refine ⟨rfl, ?_, ?_⟩
  · intro i j hi hj
    have htr : (importEncodingFromUriTrace a expected hod deps).1
        = [.evalArtifact a, .callFactory (loadArgs hod deps),
           .compareHash (loadComputedHash a hod deps) expected] := rfl
    rw [htr] at hi hj
    have hi0 : i = 0 := by
      match i with
      | 0 => rfl
      | 1 => exact absurd hi (by simp)
      | 2 => exact absurd hi (by simp)
      | n + 3 => exact absurd hi (by simp)
    have hj2 : j = 2 := by
      match j with
      | 0 => exact absurd hj (by simp)
      | 1 => exact absurd hj (by simp)
      | 2 => rfl
      | n + 3 => exact absurd hj (by simp)
    omega
  · intro hce
    refine ⟨?_, ?_, ?_⟩
    · rw [importEncodingFromUri]
      simp only [importEncodingFromUriTrace]
      rw [if_neg hce]
    · simp [importEncodingFromUriTrace]
    · simp [importEncodingFromUriTrace]

/-- C10 witness: at a concrete artifact with a mismatching expected
hash, the module was still evaluated and the factory still called. -/
theorem c10_witness :
    loadComputedHash ⟨[], [], none, chars "x"⟩ (.objArg []) [] ≠ chars "nope" ∧
    (importEncodingFromUri ⟨[], [], none, chars "x"⟩ (chars "nope") (.objArg []) []
        = .error (chars "Data integrity check failed: hash mismatch.")
      ∧ LoadEvent.evalArtifact ⟨[], [], none, chars "x"⟩
          ∈ (importEncodingFromUriTrace ⟨[], [], none, chars "x"⟩ (chars "nope")
              (.objArg []) []).1
      ∧ LoadEvent.callFactory (loadArgs (.objArg []) [])
          ∈ (importEncodingFromUriTrace ⟨[], [], none, chars "x"⟩ (chars "nope")
              (.objArg []) []).1) := by
  refine ⟨by decide, ?_⟩
  exact (c10_evaluation_precedes_verification ⟨[], [], none, chars "x"⟩ (chars "nope")
    (.objArg []) []).2.2 (by decide)

/-- C7 counterexample: with a primitive (neither callable nor object)
third argument, the dependency map `load` uses is the fourth parameter,
not the third: two calls differing only in the fourth parameter resolve
to different dependency maps, refuting "otherwise X is used as the
dependency map". -/
theorem c7_counterexample :
    loadDeps (.primArg (.str (chars "zzz"))) [(chars "k", JSVal.dat 7)]
        = [(chars "k", JSVal.dat 7)]
    ∧ loadDeps (.primArg (.str (chars "zzz"))) [] = []
    ∧ ([(chars "k", JSVal.dat 7)] : DepMap) ≠ [] :=
  ⟨rfl, rfl, by decide⟩

/-- C7 (amended): if the third parameter is callable it is the hasher
(the fourth parameter being the dependency map); if it is a
non-callable object it is the dependency map (with the default hasher);
for any other value both resolve to defaults — the third parameter is
ignored and the fourth parameter remains the dependency map. -/
theorem c7_amended (a : Artifact) (expected : Str) (H : Str → Str)
    (m D : DepMap) (v : JSVal) :
    loadHasher (.hasherArg H) D = H
    ∧ loadDeps (.hasherArg H) D = D
    ∧ importEncodingFromUri a expected (.objArg m) D
        = importEncodingFromUri a expected (.hasherArg defaultHasher) m
    ∧ importEncodingFromUri a expected (.primArg v) D
        = importEncodingFromUri a expected (.hasherArg defaultHasher) D :=
  ⟨rfl, rfl, rfl, rfl⟩

/-- C9 counterexample: `toDataUri` (btoa) fails on module text outside
the Latin-1 range instead of base64-encoding its UTF-8 bytes. -/
theorem c9_counterexample :
    toDataUri (chars "π") = .error (chars "InvalidCharacterError") := rfl

/-- C9 (amended): for module text whose code points all fit in a byte,
pack yields `data:text/javascript;base64,` plus the base64 of the text
and unpacking recovers the text exactly; for text with any code point
above U+00FF, pack throws `InvalidCharacterError`. -/
theorem c9_amended (x : Str) :
    ((∀ c ∈ x, c.toNat < 256) →
      toDataUri x = .ok (chars "data:text/javascript;base64," ++
          b64Encode (x.map Char.toNat))
      ∧ unpackDataUri (chars "data:text/javascript;base64," ++
          b64Encode (x.map Char.toNat)) = x)
    ∧ ((∃ c ∈ x, 256 ≤ c.toNat) →
      toDataUri x = .error (chars "InvalidCharacterError")) := by
  constructor
  · intro hl
    refine ⟨?_, unpackDataUri_payload x hl⟩
    rw [toDataUri, btoa_ok_of_latin1 x hl]
    rfl
  · rintro ⟨c, hc, hge⟩
    rw [toDataUri, btoa, if_neg ?_]
    · rfl
    · intro hall
      exact absurd (of_decide_eq_true (List.all_eq_true.1 hall c hc)) (by omega)

/-- C9 witness: the concrete module text "hi" packs to its base64 data
URI and unpacks back to "hi". -/
theorem c9_witness :
    toDataUri (chars "hi") = .ok (chars "data:text/javascript;base64," ++
        b64Encode ((chars "hi").map Char.toNat))
    ∧ unpackDataUri (chars "data:text/javascript;base64," ++
        b64Encode ((chars "hi").map Char.toNat)) = chars "hi" :=
  (c9_amended (chars "hi")).1 (by decide)

/-- C6: Non-callable dependencies are excluded from the hash but still
injected: the canonical text (and hence the digest, for any hasher)
depends only on the callable dependency entries, while `load` passes
every dependency value — callable or not — as a positional argument to
the module factory in name-sorted order (the sorted keys being a
permutation of the map's keys, so every value is passed). -/
theorem c6_noncallable_deps (e : EncoderDef) (d : DepMap) (a : Artifact)
    (expected : Str) (H : Str → Str) :
    generateFunctionsString e (d.filter fun kv => kv.2.isFunction)
        = generateFunctionsString e d
    ∧ (∀ hasher : Str → Str,
        generateHash e (d.filter fun kv => kv.2.isFunction) hasher = generateHash e d hasher)
    ∧ (importEncodingFromUriTrace a expected (.hasherArg H) d).1[1]?
        = some (.callFactory (JSVal.host (chars "cenc") :: JSVal.host (chars "b4a") ::
            (sortKeys (d.map Prod.fst)).map (depLookup d)))
    ∧ List.Sorted strLe (sortKeys (d.map Prod.fst))
    ∧ ((d.map Prod.fst).Nodup →
        ((sortKeys (d.map Prod.fst)).map (depLookup d)).Perm (d.map Prod.snd)) := by
  refine ⟨gfs_filter_callable e d,
    fun hasher => by rw [generateHash, generateHash, gfs_filter_callable],
    rfl, sortKeys_sorted _, ?_⟩
  intro hnd
  have hperm := (sortKeys_perm (d.map Prod.fst)).map (depLookup d)
  rw [map_depLookup_keys d hnd] at hperm
  exact hperm

/-- C6 witness: with one callable and one non-callable dependency, the
text ignores the non-callable entry yet the factory call receives both
values, sorted by name. -/
theorem c6_witness :
    generateFunctionsString ⟨none, none, none, none⟩
        [(chars "z", JSVal.fn (chars "z() { return 1 }")), (chars "a", JSVal.dat 5)]
      = generateFunctionsString ⟨none, none, none, none⟩
        [(chars "z", JSVal.fn (chars "z() { return 1 }"))]
    ∧ (((sortKeys ([(chars "z", JSVal.fn (chars "z() { return 1 }")),
          (chars "a", JSVal.dat 5)].map Prod.fst)).map
        (depLookup [(chars "z", JSVal.fn (chars "z() { return 1 }")),
          (chars "a", JSVal.dat 5)])).Perm
        ([(chars "z", JSVal.fn (chars "z() { return 1 }")),
          (chars "a", JSVal.dat 5)].map Prod.snd)) := by
  constructor
  · have h := (c6_noncallable_deps ⟨none, none, none, none⟩
      [(chars "z", JSVal.fn (chars "z() { return 1 }")), (chars "a", JSVal.dat 5)]
      ⟨[], [], none, []⟩ [] (fun s => s)).1
    rw [show [(chars "z", JSVal.fn (chars "z() { return 1 }")),
        (chars "a", JSVal.dat 5)].filter (fun kv => kv.2.isFunction)
      = [(chars "z", JSVal.fn (chars "z() { return 1 }"))] from by decide] at h
    exact h
  · exact (c6_noncallable_deps ⟨none, none, none, none⟩
      [(chars "z", JSVal.fn (chars "z() { return 1 }")), (chars "a", JSVal.dat 5)]
      ⟨[], [], none, []⟩ [] (fun s => s)).2.2.2.2 (by decide)

/-- C3 counterexample: the serializer does NOT sort dependencies — it
emits them in map insertion order — so two maps with the same pairs in
different orders produce different canonical text and (already for the
identity hasher) different digests from create. -/
theorem c3_counterexample :
    ([(chars "a", JSVal.fn (chars "(x) => 1")), (chars "b", JSVal.fn (chars "(x) => 2"))]
        : DepMap).Perm
      [(chars "b", JSVal.fn (chars "(x) => 2")), (chars "a", JSVal.fn (chars "(x) => 1"))]
    ∧ generateFunctionsString ⟨none, none, none, none⟩
        [(chars "a", JSVal.fn (chars "(x) => 1")), (chars "b", JSVal.fn (chars "(x) => 2"))]
      ≠ generateFunctionsString ⟨none, none, none, none⟩
        [(chars "b", JSVal.fn (chars "(x) => 2")), (chars "a", JSVal.fn (chars "(x) => 1"))]
    ∧ generateHash ⟨none, none, none, none⟩
        [(chars "a", JSVal.fn (chars "(x) => 1")), (chars "b", JSVal.fn (chars "(x) => 2"))]
        (fun s => s)
      ≠ generateHash ⟨none, none, none, none⟩
        [(chars "b", JSVal.fn (chars "(x) => 2")), (chars "a", JSVal.fn (chars "(x) => 1"))]
        (fun s => s) :=
  ⟨List.Perm.swap _ _ _, by decide, by decide⟩

/-- C3 (amended): the canonical text emits dependencies in map
insertion order, so the digest is order-dependent (see the
counterexample); what is insertion-order independent is the sorted
parameter/argument wiring: permuting a (duplicate-free) map leaves the
sorted key list and the factory argument list unchanged.  Adding or
removing a key changes the canonical text exactly when its value is
callable: appending a callable entry always changes the text, appending
a non-callable entry never changes text or digest. -/
theorem c3_order_dependence (e : EncoderDef) (d : DepMap) (k : Str) (v : JSVal)
    (s : Str) (H : Str → Str) (d₁ d₂ : DepMap) :
    (v.isFunction = false →
      generateFunctionsString e (d ++ [(k, v)]) = generateFunctionsString e d
      ∧ generateHash e (d ++ [(k, v)]) H = generateHash e d H)
    ∧ generateFunctionsString e (d ++ [(k, JSVal.fn s)]) ≠ generateFunctionsString e d
    ∧ (d₁.Perm d₂ → (d₁.map Prod.fst).Nodup →
        sortKeys (d₁.map Prod.fst) = sortKeys (d₂.map Prod.fst)
        ∧ loadArgs (.hasherArg H) d₁ = loadArgs (.hasherArg H) d₂) := by
  refine ⟨?_, ?_, ?_⟩
  · intro hv
    have htext : generateFunctionsString e (d ++ [(k, v)]) = generateFunctionsString e d := by
      rw [← gfs_filter_callable e (d ++ [(k, v)]), ← gfs_filter_callable e d,
        List.filter_append]
      simp [hv]
    exact ⟨htext, by rw [generateHash, generateHash, htext]⟩
  · have key : ∀ l : List Str,
        joinSep (chars ",\n") (l ++ [handleFunction k s]) ≠ joinSep (chars ",\n") l := by
      intro l he
      have hlen := congrArg List.length he
      rw [joinSep_length_append_single] at hlen
      have hpos := handleFunction_length_pos k s
      by_cases hl : l.isEmpty
      · rw [if_pos hl] at hlen
        omega
      · rw [if_neg hl] at hlen
        have h2 : (chars ",\n").length = 2 := rfl
        omega
    rw [generateFunctionsString_eq_entries e (d ++ [(k, JSVal.fn s)]),
      generateFunctionsString_eq_entries e d]
    have hdepE : depEntries (d ++ [(k, JSVal.fn s)])
        = depEntries d ++ [(k, normalizeFnSrc k s)] := by
      rw [depEntries, depEntries, List.filter_append, List.map_append]
      rfl
    rw [hdepE, ← List.append_assoc, List.map_append]
    rw [show List.map renderEntry [(k, normalizeFnSrc k s)] = [handleFunction k s] from rfl]
    exact key _
  · intro hperm hnd
    have hkeq : sortKeys (d₁.map Prod.fst) = sortKeys (d₂.map Prod.fst) :=
      sortKeys_eq_of_perm (hperm.map Prod.fst)
    refine ⟨hkeq, ?_⟩
    simp only [loadArgs, loadDeps, resolveHasherDeps]
    rw [hkeq]
    congr 1
    congr 1
    apply List.map_congr_left
    intro x hx
    exact depLookup_perm hperm hnd x

/-- C3 witness: appending a callable entry changes the text, appending
a non-callable entry does not, and permuting a two-entry map leaves the
sorted factory argument list unchanged. -/
theorem c3_witness :
    (generateFunctionsString ⟨none, none, none, none⟩
        ([(chars "a", JSVal.fn (chars "(x) => 1"))] ++ [(chars "b", JSVal.dat 3)])
      = generateFunctionsString ⟨none, none, none, none⟩
        [(chars "a", JSVal.fn (chars "(x) => 1"))])
    ∧ generateFunctionsString ⟨none, none, none, none⟩
        ([(chars "a", JSVal.fn (chars "(x) => 1"))] ++ [(chars "b", JSVal.fn (chars "(y) => 2"))])
      ≠ generateFunctionsString ⟨none, none, none, none⟩
        [(chars "a", JSVal.fn (chars "(x) => 1"))]
    ∧ loadArgs (.hasherArg (fun s => s))
        [(chars "a", JSVal.dat 1), (chars "b", JSVal.dat 2)]
      = loadArgs (.hasherArg (fun s => s))
        [(chars "b", JSVal.dat 2), (chars "a", JSVal.dat 1)] := by
  refine ⟨?_, ?_, ?_⟩
  · exact ((c3_order_dependence ⟨none, none, none, none⟩
      [(chars "a", JSVal.fn (chars "(x) => 1"))] (chars "b") (JSVal.dat 3)
      [] (fun s => s) [] []).1 (by decide)).1
  · exact (c3_order_dependence ⟨none, none, none, none⟩
      [(chars "a", JSVal.fn (chars "(x) => 1"))] (chars "b") (JSVal.dat 3)
      (chars "(y) => 2") (fun s => s) [] []).2.1
  · exact ((c3_order_dependence ⟨none, none, none, none⟩ [] (chars "k") (JSVal.dat 0)
      [] (fun s => s)
      [(chars "a", JSVal.dat 1), (chars "b", JSVal.dat 2)]
      [(chars "b", JSVal.dat 2), (chars "a", JSVal.dat 1)]).2.2
      (List.Perm.swap _ _ _) (by decide)).2

set_option maxRecDepth 16384 in
/-- C4 counterexample: swapping a CALLABLE dependency's implementation
between create time and load time changes the recomputed digest (the
function's source is serialized into the canonical text), so load fails
with the hash-mismatch error instead of succeeding. -/
theorem c4_counterexample :
    generateEncodingUri [] ⟨none, none, none, none⟩
        [(chars "process", JSVal.fn (chars "process(v) { return 1 }"))] (fun s => s)
      = .ok ⟨chars "data:text/javascript;base64," ++
          b64Encode ((generateModuleCode [] ⟨none, none, none, none⟩
            [(chars "process", JSVal.fn (chars "process(v) { return 1 }"))]
            (fun s => s)).map Char.toNat),
         generateHash ⟨none, none, none, none⟩
            [(chars "process", JSVal.fn (chars "process(v) { return 1 }"))] (fun s => s)⟩
    ∧ importEncodingFromUri
        (createdArtifact [] ⟨none, none, none, none⟩
          [(chars "process", JSVal.fn (chars "process(v) { return 1 }"))] (fun s => s))
        (generateHash ⟨none, none, none, none⟩
          [(chars "process", JSVal.fn (chars "process(v) { return 1 }"))] (fun s => s))
        (.hasherArg (fun s => s))
        [(chars "process", JSVal.fn (chars "process(v) { return 2 }"))]
      = .error (chars "Data integrity check failed: hash mismatch.") := by
  constructor
  · exact generateEncodingUri_ok_of_latin _ _ _ _ (by decide)
  · rfl

/-- C4 (amended): for a dependency key whose value is NOT callable (as
in the library's swap test, where the implementation is an object of
methods), the digest does not cover the value, so supplying a different
implementation at load time succeeds, and the factory's parameter
environment — the scope the encoder's capabilities close over — binds
the key to the load-time implementation.  (For callable values the
source is hashed and a swap fails; see the counterexample.) -/
theorem c4_dependency_swap (name : Str) (e : EncoderDef) (h : Str → Str) (k : Str)
    (v₁ v₂ : JSVal)
    (h1 : v₁.isFunction = false) (h2 : v₂.isFunction = false)
    (hk1 : k ≠ chars "cenc") (hk2 : k ≠ chars "b4a") :
    generateHash e [(k, v₁)] h = generateHash e [(k, v₂)] h
    ∧ importEncodingFromUri (createdArtifact name e [(k, v₁)] h)
        (generateHash e [(k, v₁)] h) (.hasherArg h) [(k, v₂)]
      = .ok (cencFrom (loadObj (createdArtifact name e [(k, v₁)] h)
          (.hasherArg h) [(k, v₂)]))
    ∧ envLookup (loadObj (createdArtifact name e [(k, v₁)] h)
        (.hasherArg h) [(k, v₂)]) k = v₂ := by
  have hf1 : ([(k, v₁)] : DepMap).filter (fun kv => kv.2.isFunction) = [] := by simp [h1]
  have hf2 : ([(k, v₂)] : DepMap).filter (fun kv => kv.2.isFunction) = [] := by simp [h2]
  refine ⟨?_, ?_, ?_⟩
  · rw [generateHash, generateHash, ← gfs_filter_callable e [(k, v₁)], hf1,
      ← gfs_filter_callable e [(k, v₂)], hf2]
  · rw [importEncodingFromUri]
    simp only [importEncodingFromUriTrace]
    rw [if_pos (loadComputedHash_created_nodeps name e [(k, v₁)] h (.hasherArg h)
      [(k, v₂)] [(k, v₂)] rfl hf1 hf2)]
  · have hsort : sortKeys [k] = [k] := rfl
    have hlookup : depLookup [(k, v₂)] k = v₂ :=
      depLookup_eq_of_mem_nodup (by simp) (by simp)
    have hargs : loadArgs (.hasherArg h) [(k, v₂)]
        = [JSVal.host (chars "cenc"), JSVal.host (chars "b4a"), v₂] := by
      simp only [loadArgs, loadDeps, resolveHasherDeps]
      rw [show ([(k, v₂)] : DepMap).map Prod.fst = [k] from rfl, hsort]
      simp [hlookup]
    have hc1 : (chars "cenc" == k) = false := by
      rw [beq_eq_false_iff_ne]
      exact fun he => hk1 he.symm
    have hc2 : (chars "b4a" == k) = false := by
      rw [beq_eq_false_iff_ne]
      exact fun he => hk2 he.symm
    have hck : (k == k) = true := by simp
    simp only [envLookup, loadObj, hargs, evalFactory]
    rw [show (createdArtifact name e [(k, v₁)] h).depParams = [k] from hsort]
    simp [getProp, hc1, hc2, hck]

/-- C4 witness: swapping the non-callable dependency value under key
`dep` between create and load succeeds and the environment binds `dep`
to the load-time value. -/
theorem c4_witness :
    importEncodingFromUri
        (createdArtifact (chars "e") ⟨none, none, none, none⟩
          [(chars "dep", JSVal.dat 1)] (fun s => s))
        (generateHash ⟨none, none, none, none⟩ [(chars "dep", JSVal.dat 1)] (fun s => s))
        (.hasherArg (fun s => s)) [(chars "dep", JSVal.dat 2)]
      = .ok (cencFrom (loadObj (createdArtifact (chars "e") ⟨none, none, none, none⟩
          [(chars "dep", JSVal.dat 1)] (fun s => s))
          (.hasherArg (fun s => s)) [(chars "dep", JSVal.dat 2)]))
    ∧ envLookup (loadObj (createdArtifact (chars "e") ⟨none, none, none, none⟩
        [(chars "dep", JSVal.dat 1)] (fun s => s))
        (.hasherArg (fun s => s)) [(chars "dep", JSVal.dat 2)]) (chars "dep")
      = JSVal.dat 2 := by
  have h := c4_dependency_swap (chars "e") ⟨none, none, none, none⟩ (fun s => s)
    (chars "dep") (JSVal.dat 1) (JSVal.dat 2) (by decide) (by decide)
    (by decide) (by decide)
  exact ⟨h.2.1, h.2.2⟩

/-- C8: Empty encoders: an encoder definition with none of
encode/decode/preencode and a dependency map with no callable values
serializes to the empty string, still creates successfully (given the
inputs are byte-encodable) and loads successfully, and the resulting
loaded encoder has no enumerable properties beyond `name` and `hash`. -/
theorem c8_empty_encoders (n_ : Str) (e : EncoderDef) (d : DepMap) (h : Str → Str)
    (he : e.encode = none) (hd : e.decode = none) (hp : e.preencode = none)
    (hnc : ∀ kv ∈ d, kv.2.isFunction = false)
    (hn : ∀ c ∈ n_, c.toNat < 256)
    (hen : ∀ c ∈ e.name.getD [], c.toNat < 256)
    (hkl : ∀ k ∈ d.map Prod.fst, ∀ c ∈ k, c.toNat < 256)
    (hh : ∀ c ∈ h [], c.toNat < 256) :
    generateFunctionsString e d = []
    ∧ (∃ r, generateEncodingUri n_ e d h = .ok r)
    ∧ importEncodingFromUri (createdArtifact n_ e d h) (generateHash e d h)
        (.hasherArg h) d
      = .ok (cencFrom (loadObj (createdArtifact n_ e d h) (.hasherArg h) d))
    ∧ (∀ kv ∈ (cencFrom (loadObj (createdArtifact n_ e d h) (.hasherArg h) d)).props,
        kv.1 = chars "name" ∨ kv.1 = chars "hash") := by
  have hempty := gfs_empty e d he hd hp hnc
  have hfil := filter_callable_nil hnc
  refine ⟨hempty, ?_, ?_, ?_⟩
  · refine ⟨_, generateEncodingUri_ok_of_latin n_ e d h ?_⟩
    apply generateModuleCode_latin n_ e d h hn hen hkl
    · rw [hempty]
      intro c hc
      simp at hc
    · rw [generateHash, hempty]
      exact hh
  · rw [importEncodingFromUri]
    simp only [importEncodingFromUriTrace]
    rw [if_pos (loadComputedHash_created_nodeps n_ e d h (.hasherArg h) d d rfl hfil hfil)]
  · intro kv hkv
    have hce : capEntries e = [] := by
      rw [capEntries, he, hd, hp]
      rfl
    have hde : depEntries d = [] := by rw [depEntries, hfil]; rfl
    simp only [cencFrom, loadObj, evalFactory, createdArtifact_entries, hce, hde,
      List.append_nil, List.nil_append, List.map_nil] at hkv
    rcases List.mem_append.1 hkv with hkv1 | hkv2
    · rcases hnp : (createdArtifact n_ e d h).nameProp with _ | m
      · rw [hnp] at hkv1
        simp at hkv1
      · rw [hnp] at hkv1
        simp at hkv1
        left
        rw [hkv1]
    · right
      simp at hkv2
      rw [hkv2]

/-- C8 witness: a concrete empty encoder with a non-callable dependency
creates and loads, and the loaded object has only `name` and `hash`
properties. -/
theorem c8_witness :
    generateFunctionsString ⟨none, none, none, none⟩ [(chars "cfg", JSVal.dat 0)] = []
    ∧ importEncodingFromUri
        (createdArtifact (chars "emptyEncoder") ⟨none, none, none, none⟩
          [(chars "cfg", JSVal.dat 0)] (fun s => s))
        (generateHash ⟨none, none, none, none⟩ [(chars "cfg", JSVal.dat 0)] (fun s => s))
        (.hasherArg (fun s => s)) [(chars "cfg", JSVal.dat 0)]
      = .ok (cencFrom (loadObj
          (createdArtifact (chars "emptyEncoder") ⟨none, none, none, none⟩
            [(chars "cfg", JSVal.dat 0)] (fun s => s))
          (.hasherArg (fun s => s)) [(chars "cfg", JSVal.dat 0)])) := by
  have h := c8_empty_encoders (chars "emptyEncoder") ⟨none, none, none, none⟩
    [(chars "cfg", JSVal.dat 0)] (fun s => s) rfl rfl rfl (by decide) (by decide)
    (by decide) (by decide) (by decide)
  exact ⟨h.1, h.2.2.1⟩

set_option maxRecDepth 16384 in
/-- C1 counterexample: the round trip fails as universally stated: a
dependency map whose key collides with a capability name (here
`encode`) makes the loaded object expose that dependency as the
`encode` capability, so the re-derived digest covers an extra entry and
load throws the hash-mismatch error even with the same map and hasher. -/
theorem c1_counterexample :
    generateEncodingUri [] ⟨none, none, none, none⟩
        [(chars "encode", JSVal.fn (chars "(s) => 1"))] (fun s => s)
      = .ok ⟨chars "data:text/javascript;base64," ++
          b64Encode ((generateModuleCode [] ⟨none, none, none, none⟩
            [(chars "encode", JSVal.fn (chars "(s) => 1"))] (fun s => s)).map Char.toNat),
         generateHash ⟨none, none, none, none⟩
            [(chars "encode", JSVal.fn (chars "(s) => 1"))] (fun s => s)⟩
    ∧ importEncodingFromUri
        (createdArtifact [] ⟨none, none, none, none⟩
          [(chars "encode", JSVal.fn (chars "(s) => 1"))] (fun s => s))
        (generateHash ⟨none, none, none, none⟩
          [(chars "encode", JSVal.fn (chars "(s) => 1"))] (fun s => s))
        (.hasherArg (fun s => s))
        [(chars "encode", JSVal.fn (chars "(s) => 1"))]
      = .error (chars "Data integrity check failed: hash mismatch.") := by
  constructor
  · exact generateEncodingUri_ok_of_latin _ _ _ _ (by decide)
  · rfl

/-- C1 (amended): Round trip: when create succeeds, the returned uri
unpacks to exactly the module text of the created artifact, and loading
that artifact with the returned hash, the same hasher and the same
dependency map succeeds, provided the map has duplicate-free identifier
keys distinct from the reserved property names (encode, decode,
preencode, name, hash) and well-formed function sources.  The returned
encoder exposes each of D's capabilities and, for every key of M whose
value is callable, a capability denoting the same function as M's
original value. -/
theorem c1_round_trip (name : Str) (e : EncoderDef) (d : DepMap) (h : Str → Str)
    (r : CreateResult)
    (hok : generateEncodingUri name e d h = .ok r)
    (hnodup : (d.map Prod.fst).Nodup)
    (hdisj : ∀ kv ∈ d, kv.1 ≠ chars "encode" ∧ kv.1 ≠ chars "decode" ∧
      kv.1 ≠ chars "preencode" ∧ kv.1 ≠ chars "name" ∧ kv.1 ≠ chars "hash")
    (hwfdep : ∀ kv ∈ d, isJsIdent kv.1 = true ∧ WellFormedFnSrc kv.1 kv.2.fnSrc)
    (hwfE : WellFormedFnSrc (chars "encode") (e.encode.getD []))
    (hwfD : WellFormedFnSrc (chars "decode") (e.decode.getD []))
    (hwfP : WellFormedFnSrc (chars "preencode") (e.preencode.getD [])) :
    unpackDataUri r.uri = renderArtifact (createdArtifact name e d h)
    ∧ ∃ o, importEncodingFromUri (createdArtifact name e d h) r.hash
          (.hasherArg h) d = .ok o
        ∧ (∀ f, e.encode = some f →
            ∃ src, o.get (chars "encode") = .fn src ∧ denoteFun src = denoteFun f)
        ∧ (∀ f, e.decode = some f →
            ∃ src, o.get (chars "decode") = .fn src ∧ denoteFun src = denoteFun f)
        ∧ (∀ f, e.preencode = some f →
            ∃ src, o.get (chars "preencode") = .fn src ∧ denoteFun src = denoteFun f)
        ∧ (∀ k s, (k, JSVal.fn s) ∈ d →
            ∃ src, o.get k = .fn src ∧ denoteFun src = denoteFun s) := by
  obtain ⟨hrh, hlat, hruri⟩ := generateEncodingUri_ok_parts hok
  have hdisj3 : ∀ kv ∈ d, kv.1 ≠ chars "encode" ∧ kv.1 ≠ chars "decode" ∧
      kv.1 ≠ chars "preencode" := fun kv hkv =>
    ⟨(hdisj kv hkv).1, (hdisj kv hkv).2.1, (hdisj kv hkv).2.2.1⟩
  constructor
  · rw [hruri, unpackDataUri_payload _ hlat, renderArtifact_createdArtifact]
  · rw [hrh]
    obtain ⟨hE, hD, hP⟩ := evalFactory_created_caps name e d h
      (loadArgs (.hasherArg h) d) hdisj3
    refine ⟨_, load_created_ok name e d h (.hasherArg h) d rfl hdisj3, ?_, ?_, ?_, ?_⟩
    · intro f hf
      refine ⟨normalizeFnSrc (chars "encode") f, ?_, ?_⟩
      · show (evalFactory (createdArtifact name e d h)
          (loadArgs (.hasherArg h) d)).get (chars "encode") = _
        rw [hE, hf]
      · exact denoteFun_normalizeFnSrc (chars "encode") f (by decide)
          (by rw [hf] at hwfE; exact hwfE)
    · intro f hf
      refine ⟨normalizeFnSrc (chars "decode") f, ?_, ?_⟩
      · show (evalFactory (createdArtifact name e d h)
          (loadArgs (.hasherArg h) d)).get (chars "decode") = _
        rw [hD, hf]
      · exact denoteFun_normalizeFnSrc (chars "decode") f (by decide)
          (by rw [hf] at hwfD; exact hwfD)
    · intro f hf
      refine ⟨normalizeFnSrc (chars "preencode") f, ?_, ?_⟩
      · show (evalFactory (createdArtifact name e d h)
          (loadArgs (.hasherArg h) d)).get (chars "preencode") = _
        rw [hP, hf]
      · exact denoteFun_normalizeFnSrc (chars "preencode") f (by decide)
          (by rw [hf] at hwfP; exact hwfP)
    · intro k s hmem
      have hk5 := hdisj (k, JSVal.fn s) hmem
      refine ⟨normalizeFnSrc k s, ?_, ?_⟩
      · show (evalFactory (createdArtifact name e d h)
          (loadArgs (.hasherArg h) d)).get k = _
        exact evalFactory_created_dep name e d h _ k s hnodup hmem
          hk5.2.2.2.1 hk5.2.2.2.2
      · obtain ⟨hidk, hwfk⟩ := hwfdep (k, JSVal.fn s) hmem
        exact denoteFun_normalizeFnSrc k s hidk hwfk

set_option maxRecDepth 16384 in
/-- C1 witness: a concrete encoder with an arrow-function capability
and one shorthand-method dependency round trips: create, then load with
the same hasher and map, succeeds and the loaded `hello` capability
denotes the original `hello` function. -/
theorem c1_witness : ∃ o,
    importEncodingFromUri
        (createdArtifact (chars "e") ⟨some (chars "(s) => 1"), none, none, none⟩
          [(chars "hello", JSVal.fn (chars "hello() { return 2 }"))] (fun s => s))
        (generateHash ⟨some (chars "(s) => 1"), none, none, none⟩
          [(chars "hello", JSVal.fn (chars "hello() { return 2 }"))] (fun s => s))
        (.hasherArg (fun s => s))
        [(chars "hello", JSVal.fn (chars "hello() { return 2 }"))] = .ok o
    ∧ ∃ src, o.get (chars "hello") = .fn src
        ∧ denoteFun src = denoteFun (chars "hello() { return 2 }") := by
  have h := c1_round_trip (chars "e") ⟨some (chars "(s) => 1"), none, none, none⟩
    [(chars "hello", JSVal.fn (chars "hello() { return 2 }"))] (fun s => s)
    ⟨chars "data:text/javascript;base64," ++
      b64Encode ((generateModuleCode (chars "e")
        ⟨some (chars "(s) => 1"), none, none, none⟩
        [(chars "hello", JSVal.fn (chars "hello() { return 2 }"))]
        (fun s => s)).map Char.toNat),
     generateHash ⟨some (chars "(s) => 1"), none, none, none⟩
        [(chars "hello", JSVal.fn (chars "hello() { return 2 }"))] (fun s => s)⟩
    (generateEncodingUri_ok_of_latin _ _ _ _ (by decide))
    (by decide) (by decide) (by decide) (by decide) (by decide) (by decide)
  obtain ⟨o, ho, _, _, _, hdep⟩ := h.2
  exact ⟨o, ho, hdep (chars "hello") (chars "hello() { return 2 }") (by simp)⟩

end DynamicEncoder